import Mathlib

/-!
# cf-cli-find-app-plugin: a verification development

A shallow embedding of `cf-cli-find-app-plugin.go` (the `find-app` plugin of the
Cloud Foundry CLI) together with the properties of its observable behaviour.

Modelling conventions.

* A Go `string` is modelled as a Lean `String`, a sequence of Unicode scalar
  values, i.e. valid UTF-8 text.  Byte sequences that are not valid UTF-8 are
  outside the model.
* Standard output is the list of texts written, one entry per `fmt` call, in
  order; the stream itself is the concatenation of the entries.
* The host (`plugin.CliConnection`) is a record of the answers it gives; the
  calls made to it are recorded in order.
* The Go standard library is not part of the repository.  The functions of it
  that the plugin calls (`strings.Contains`, `strings.Join`, `strconv.Quote`
  behind `%q`, `encoding/json.Unmarshal`) are modelled from their documented
  behaviour; what cannot be written down (the Unicode printability tables, the
  wording of the decoder's error messages, the `%v` rendering of a `float32`)
  is a field of `GoRuntime`.
-/

set_option linter.dupNamespace false

namespace FindApp

/-! ## Characters and strings -/

/-- The double quote character, U+0022. -/
def dquote : Char := Char.ofNat 34

/-- The backslash character, U+005C. -/
def backslash : Char := Char.ofNat 92

/-- Whether `p` is an initial segment of `s` (Go `strings.HasPrefix` on character lists). -/
def startsWith : List Char → List Char → Bool
  | [], _ => true
  | _ :: _, [] => false
  | p :: ps, c :: cs => p == c && startsWith ps cs

/-- Whether `sub` occurs in `s` at some position (Go `strings.Index(s, sub) >= 0`). -/
def containsChars (sub : List Char) : List Char → Bool
  | [] => startsWith sub []
  | c :: cs => startsWith sub (c :: cs) || containsChars sub cs

/-- Go `strings.Contains(s, substr)`. -/
def Contains (s substr : String) : Bool :=
  containsChars substr.data s.data

/-- Go `strings.Join(elems, "")`. -/
def Join (elems : List String) : String :=
  elems.foldl (fun acc e => acc ++ e) ""

/-! ## `strconv.Quote`, the implementation of the `%q` verb -/

/-- The lower-case hexadecimal digit of `n % 16`. -/
def hexDigit (n : Nat) : Char :=
  if n % 16 < 10 then Char.ofNat (48 + n % 16) else Char.ofNat (87 + n % 16)

/-- The `width` lower-case hexadecimal digits of `n`, most significant first. -/
def hexDigits : Nat → Nat → List Char
  | 0, _ => []
  | width + 1, n => hexDigits width (n / 16) ++ [hexDigit n]

/-- Go `strconv.IsPrint`: decided here up to U+00FF, and by the table of the
runtime above. -/
def IsPrint (wide : Char → Bool) (r : Char) : Bool :=
  if r.toNat ≤ 0xFF then
    if 0x20 ≤ r.toNat ∧ r.toNat ≤ 0x7E then true
    else if 0xA1 ≤ r.toNat then r.toNat ≠ 0xAD
    else false
  else wide r

/-- The text `strconv.Quote` writes for one rune inside the quotes
(`appendEscapedRune` with quote character `"`). -/
def escapeRune (wide : Char → Bool) (r : Char) : List Char :=
  if r = dquote ∨ r = backslash then [backslash, r]
  else if IsPrint wide r then [r]
  else if r.toNat = 7 then [backslash, 'a']
  else if r.toNat = 8 then [backslash, 'b']
  else if r.toNat = 12 then [backslash, 'f']
  else if r.toNat = 10 then [backslash, 'n']
  else if r.toNat = 13 then [backslash, 'r']
  else if r.toNat = 9 then [backslash, 't']
  else if r.toNat = 11 then [backslash, 'v']
  else if r.toNat < 0x20 ∨ r.toNat = 0x7F then backslash :: 'x' :: hexDigits 2 r.toNat
  else if r.toNat < 0x10000 then backslash :: 'u' :: hexDigits 4 r.toNat
  else backslash :: 'U' :: hexDigits 8 r.toNat

/-- A character that `strconv.Quote` copies as it is: printable, and neither
the double quote nor the backslash. -/
def plainChar (wide : Char → Bool) (c : Char) : Bool :=
  c ≠ dquote && c ≠ backslash && IsPrint wide c

/-- Go `strconv.Quote(s)`. -/
def Quote (wide : Char → Bool) (s : String) : String :=
  ⟨dquote :: (s.data.flatMap (escapeRune wide) ++ [dquote])⟩

/-! ## `encoding/json`: the syntax check

`json.Unmarshal` first runs its scanner over the whole input (`checkValid`) and
fails with a `*json.SyntaxError` when the input is not one JSON value
surrounded by optional white space, or nests deeper than `maxNestingDepth`.
Only then does it decode.  The scanner is modelled as a recursive-descent
parser that returns the value read; string literals are unquoted as the decoder
does it. -/

/-- A JSON value.  A number carries no payload: no field of the plugin's
target types is numeric. -/
inductive JValue where
  | null : JValue
  | bool (b : Bool) : JValue
  | number : JValue
  | string (s : String) : JValue
  | array (elems : List JValue) : JValue
  | object (members : List (String × JValue)) : JValue

/-- The limit of the scanner of `encoding/json` on nested arrays and objects. -/
def maxNestingDepth : Nat := 10000

/-- JSON white space (`isSpace` of the scanner). -/
def isSpace (c : Char) : Bool :=
  c == ' ' || c == '\t' || c == '\r' || c == '\n'

/-- Drop leading white space. -/
def skipSpace : List Char → List Char
  | [] => []
  | c :: cs => if isSpace c then skipSpace cs else c :: cs

/-- The value of a hexadecimal digit of either case. -/
def hexVal (c : Char) : Option Nat :=
  if 48 ≤ c.toNat ∧ c.toNat ≤ 57 then some (c.toNat - 48)
  else if 97 ≤ c.toNat ∧ c.toNat ≤ 102 then some (c.toNat - 87)
  else if 65 ≤ c.toNat ∧ c.toNat ≤ 70 then some (c.toNat - 55)
  else none

/-- The number written by four hexadecimal digits (`getu4` of the decoder,
after the `\u`). -/
def getu4 (a b c d : Char) : Option Nat :=
  match hexVal a, hexVal b, hexVal c, hexVal d with
  | some x, some y, some z, some w => some (((x * 16 + y) * 16 + z) * 16 + w)
  | _, _, _, _ => none

/-- The replacement character U+FFFD. -/
def replacementChar : Char := Char.ofNat 0xFFFD

/-- Whether a `\u` escape denotes a UTF-16 surrogate (`utf16.IsSurrogate`). -/
def isSurrogate (r : Nat) : Bool := 0xD800 ≤ r && r < 0xE000

/-- Go `utf16.DecodeRune`: the code point of a surrogate pair, or the
replacement character when the pair is not a high then a low surrogate. -/
def decodeSurrogates (r1 r2 : Nat) : Char :=
  if 0xD800 ≤ r1 ∧ r1 < 0xDC00 ∧ 0xDC00 ≤ r2 ∧ r2 < 0xE000 then
    Char.ofNat ((r1 - 0xD800) * 1024 + (r2 - 0xDC00) + 0x10000)
  else replacementChar

/-- The character of a single-letter escape, if the letter is one. -/
def simpleEscape (c : Char) : Option Char :=
  if c = dquote then some dquote
  else if c = backslash then some backslash
  else if c = '/' then some '/'
  else if c = 'b' then some (Char.ofNat 8)
  else if c = 'f' then some (Char.ofNat 12)
  else if c = 'n' then some (Char.ofNat 10)
  else if c = 'r' then some (Char.ofNat 13)
  else if c = 't' then some (Char.ofNat 9)
  else none

/-- Read a string literal whose opening quote has been consumed: the unquoted
contents and the text after the closing quote.  Control characters below
U+0020 and unknown escapes are syntax errors; a `\u` escape that is a
surrogate combines with a following `\u` low surrogate and is otherwise
replaced by U+FFFD (`unquote` of the decoder). -/
def scanString : Nat → List Char → Option (List Char × List Char)
  | 0, _ => none
  | _ + 1, [] => none
  | fuel + 1, c :: cs =>
    if c = dquote then some ([], cs)
    else if c = backslash then
      match cs with
      | [] => none
      | e :: rest =>
        if e = 'u' then
          match rest with
          | h1 :: h2 :: h3 :: h4 :: rest1 =>
            match getu4 h1 h2 h3 h4 with
            | none => none
            | some r =>
              if isSurrogate r then
                match rest1 with
                | b2 :: u2 :: k1 :: k2 :: k3 :: k4 :: rest2 =>
                  match (if b2 = backslash ∧ u2 = 'u' then getu4 k1 k2 k3 k4 else none) with
                  | some r2 =>
                    if decodeSurrogates r r2 = replacementChar then
                      (scanString fuel rest1).map fun p => (replacementChar :: p.1, p.2)
                    else
                      (scanString fuel rest2).map fun p => (decodeSurrogates r r2 :: p.1, p.2)
                  | none => (scanString fuel rest1).map fun p => (replacementChar :: p.1, p.2)
                | _ => (scanString fuel rest1).map fun p => (replacementChar :: p.1, p.2)
              else (scanString fuel rest1).map fun p => (Char.ofNat r :: p.1, p.2)
          | _ => none
        else
          match simpleEscape e with
          | none => none
          | some x => (scanString fuel rest).map fun p => (x :: p.1, p.2)
    else if c.toNat < 0x20 then none
    else (scanString fuel cs).map fun p => (c :: p.1, p.2)

/-- Drop leading decimal digits. -/
def skipDigits : List Char → List Char
  | [] => []
  | c :: cs => if c.isDigit then skipDigits cs else c :: cs

/-- One or more decimal digits, then the rest. -/
def digits1 : List Char → Option (List Char)
  | [] => none
  | c :: cs => if c.isDigit then some (skipDigits cs) else none

/-- The integer part of a number: `0`, or a non-zero digit followed by digits. -/
def scanInt : List Char → Option (List Char)
  | [] => none
  | c :: cs =>
    if c = '0' then some cs
    else if c.isDigit then some (skipDigits cs)
    else none

/-- The optional fraction of a number. -/
def scanFrac : List Char → Option (List Char)
  | [] => some []
  | c :: cs => if c = '.' then digits1 cs else some (c :: cs)

/-- The optional exponent of a number. -/
def scanExp : List Char → Option (List Char)
  | [] => some []
  | c :: cs =>
    if c = 'e' ∨ c = 'E' then
      match cs with
      | [] => none
      | s :: rest => if s = '+' ∨ s = '-' then digits1 rest else digits1 (s :: rest)
    else some (c :: cs)

/-- Read a number literal: optional minus, integer part, optional fraction,
optional exponent.  Returns the text after it. -/
def scanNumber : List Char → Option (List Char)
  | [] => none
  | c :: cs =>
    match scanInt (if c = '-' then cs else c :: cs) with
    | none => none
    | some r1 =>
      match scanFrac r1 with
      | none => none
      | some r2 => scanExp r2

/-- Remove the literal `lit` from the front of the text, if it is there. -/
def expect : List Char → List Char → Option (List Char)
  | [], cs => some cs
  | _ :: _, [] => none
  | l :: ls, c :: cs => if l = c then expect ls cs else none

mutual
/-- Read one JSON value at the front of the text (no leading white space).
`depth` is the number of arrays and objects that are open. -/
def parseValue : Nat → Nat → List Char → Option (JValue × List Char)
  | 0, _, _ => none
  | _ + 1, _, [] => none
  | fuel + 1, depth, c :: cs =>
    if c = '{' then
      if depth + 1 > maxNestingDepth then none
      else
        match skipSpace cs with
        | [] => none
        | d :: ds =>
          if d = '}' then some (JValue.object [], ds)
          else (parseMembers fuel (depth + 1) (d :: ds)).map fun p => (JValue.object p.1, p.2)
    else if c = '[' then
      if depth + 1 > maxNestingDepth then none
      else
        match skipSpace cs with
        | [] => none
        | d :: ds =>
          if d = ']' then some (JValue.array [], ds)
          else (parseElems fuel (depth + 1) (d :: ds)).map fun p => (JValue.array p.1, p.2)
    else if c = dquote then
      (scanString (cs.length + 1) cs).map fun p => (JValue.string ⟨p.1⟩, p.2)
    else if c = 't' then (expect ['r', 'u', 'e'] cs).map fun r => (JValue.bool true, r)
    else if c = 'f' then (expect ['a', 'l', 's', 'e'] cs).map fun r => (JValue.bool false, r)
    else if c = 'n' then (expect ['u', 'l', 'l'] cs).map fun r => (JValue.null, r)
    else (scanNumber (c :: cs)).map fun r => (JValue.number, r)
/-- Read the elements of an array, the text standing at the first of them;
consumes the closing bracket. -/
def parseElems : Nat → Nat → List Char → Option (List JValue × List Char)
  | 0, _, _ => none
  | fuel + 1, depth, cs =>
    match parseValue fuel depth cs with
    | none => none
    | some (v, rest) =>
      match skipSpace rest with
      | [] => none
      | d :: ds =>
        if d = ',' then
          (parseElems fuel depth (skipSpace ds)).map fun p => (v :: p.1, p.2)
        else if d = ']' then some ([v], ds)
        else none
/-- Read the members of an object, the text standing at the first key;
consumes the closing brace. -/
def parseMembers : Nat → Nat → List Char → Option (List (String × JValue) × List Char)
  | 0, _, _ => none
  | _ + 1, _, [] => none
  | fuel + 1, depth, c :: cs =>
    if c = dquote then
      match scanString (cs.length + 1) cs with
      | none => none
      | some (key, rest) =>
        match skipSpace rest with
        | [] => none
        | d :: ds =>
          if d = ':' then
            match parseValue fuel depth (skipSpace ds) with
            | none => none
            | some (v, rest1) =>
              match skipSpace rest1 with
              | [] => none
              | e :: es =>
                if e = ',' then
                  (parseMembers fuel depth (skipSpace es)).map fun p => ((⟨key⟩, v) :: p.1, p.2)
                else if e = '}' then some ([(⟨key⟩, v)], es)
                else none
          else none
    else none
end

/-- The syntax check of `json.Unmarshal` together with the value read: one
value, white space allowed around it, nothing else. -/
def parseJSON (data : String) : Option JValue :=
  match parseValue (2 * data.data.length + 2) 0 (skipSpace data.data) with
  | none => none
  | some (v, rest) =>
    match skipSpace rest with
    | [] => some v
    | _ :: _ => none

/-! ## The data model of the plugin -/

/-- Go `type CFApp struct { Name string; Guid string; State string }`. -/
structure CFApp where
  Name : String
  Guid : String
  State : String
  deriving DecidableEq, Repr

/-- Go `type CFApps struct { CFApps []*CFApp }` with JSON key `resources`.
An element is a pointer: `none` is the nil pointer. -/
structure CFApps where
  CFApps : List (Option CFApp)
  deriving DecidableEq, Repr

/-! ## `encoding/json`: decoding into `CFApps`

After the syntax check the decoder walks the value.  A JSON `null` leaves a
string or struct untouched and sets a pointer or slice to nil.  A value whose
JSON type does not fit the Go type it is decoded into is skipped and recorded
as a `*json.UnmarshalTypeError`; decoding goes on and `Unmarshal` returns the
first error recorded.  Object keys are matched to fields by exact name first
and then under case folding; a key that matches no field is skipped.  Every
value is decoded into what its target holds at that moment, so a key that
occurs again decodes into the result of its earlier occurrence: a string
field is overwritten, and an array under `resources` is decoded, element by
element, into the records an earlier array under `resources` left in the
slice. -/

/-- The errors `json.Unmarshal` returns for a `CFApps` target. -/
inductive JsonError where
  | syntaxError : JsonError
  | unmarshalTypeError (value : String) (goType : String) : JsonError
  deriving DecidableEq, Repr

/-- The description of a JSON value in an `UnmarshalTypeError`. -/
def JValue.kind : JValue → String
  | JValue.null => "null"
  | JValue.bool _ => "bool"
  | JValue.number => "number"
  | JValue.string _ => "string"
  | JValue.array _ => "array"
  | JValue.object _ => "object"

/-- Case folding of one character of a key.  ASCII letters fold to upper case,
and the two non-ASCII characters whose simple case folding is an ASCII letter
(U+017F long s, U+212A Kelvin sign) fold to that letter.  Other characters
never fold to an ASCII letter and are left alone, which decides every
comparison with the ASCII field names of this program. -/
def foldRune (c : Char) : Char :=
  if 97 ≤ c.toNat ∧ c.toNat ≤ 122 then Char.ofNat (c.toNat - 32)
  else if c.toNat = 0x17F then 'S'
  else if c.toNat = 0x212A then 'K'
  else c

/-- Whether the object key `key` selects the field with JSON name `field`. -/
def keyMatches (field key : String) : Bool :=
  key == field || key.data.map foldRune == field.data.map foldRune

/-- Decode a value into a Go `string` that currently holds `cur`. -/
def decodeString (cur : String) : JValue → Except JsonError String
  | JValue.string s => Except.ok s
  | JValue.null => Except.ok cur
  | v => Except.error (JsonError.unmarshalTypeError v.kind "string")

/-- Decode one object member into the struct `app`. -/
def decodeAppMember (app : CFApp) (key : String) (v : JValue) : Except JsonError CFApp :=
  if keyMatches "Name" key then
    (decodeString app.Name v).map fun s => { app with Name := s }
  else if keyMatches "Guid" key then
    (decodeString app.Guid v).map fun s => { app with Guid := s }
  else if keyMatches "State" key then
    (decodeString app.State v).map fun s => { app with State := s }
  else Except.ok app

/-- Decode the members of an object, in order, into the struct `app`. -/
def decodeAppMembers (app : CFApp) : List (String × JValue) → Except JsonError CFApp
  | [] => Except.ok app
  | (key, v) :: rest =>
    match decodeAppMember app key v with
    | Except.error e => Except.error e
    | Except.ok app1 => decodeAppMembers app1 rest

/-- The slice `CFApps []*CFApp` while `Unmarshal` decodes into it: the cells of
its backing array that have been written, every further cell being nil, and
its length.  A cell beyond the length was left behind by a longer array that
the same text gave earlier under `resources`. -/
structure SliceState where
  cells : List (Option CFApp)
  len : Nat
  deriving DecidableEq, Repr

/-- Decode a value into an element of type `*CFApp` that holds `cur`.  A
`null` sets the pointer to nil.  An object is decoded into the record the
pointer points to, and into a new zero record when the pointer is nil. -/
def decodeElem (cur : Option CFApp) : JValue → Except JsonError (Option CFApp)
  | JValue.null => Except.ok none
  | JValue.object members => (decodeAppMembers (cur.getD ⟨"", "", ""⟩) members).map some
  | v => Except.error (JsonError.unmarshalTypeError v.kind "main.CFApp")

/-- Decode the elements of an array, in order, element `i` into cell `i` of
the backing array (`d.value(v.Index(i))`); the cells after the last element
stay as they are. -/
def decodeElems : List (Option CFApp) → List JValue → Except JsonError (List (Option CFApp))
  | cells, [] => Except.ok cells
  | cells, v :: rest =>
    match decodeElem (cells.headD none) v with
    | Except.error e => Except.error e
    | Except.ok a =>
      match decodeElems cells.tail rest with
      | Except.error e => Except.error e
      | Except.ok others => Except.ok (a :: others)

/-- Decode a value into the field `CFApps []*CFApp` in state `cur`.  A `null`
sets the slice to nil and an empty array sets it to a new empty slice.  A
non-empty array is decoded into the existing backing array, which grows as
needed, and the length becomes the number of elements. -/
def decodeSlice (cur : SliceState) : JValue → Except JsonError SliceState
  | JValue.null => Except.ok ⟨[], 0⟩
  | JValue.array elems =>
    match elems with
    | [] => Except.ok ⟨[], 0⟩
    | v :: rest =>
      (decodeElems cur.cells (v :: rest)).map fun cells => ⟨cells, (v :: rest).length⟩
  | v => Except.error (JsonError.unmarshalTypeError v.kind "[]*main.CFApp")

/-- Decode the members of the top-level object, in order, into the slice in
state `cur`: each member that selects `resources` is decoded into the slice
as the members before it left it. -/
def decodeTopMembers (cur : SliceState) :
    List (String × JValue) → Except JsonError SliceState
  | [] => Except.ok cur
  | (key, v) :: rest =>
    if keyMatches "resources" key then
      match decodeSlice cur v with
      | Except.error e => Except.error e
      | Except.ok next => decodeTopMembers next rest
    else decodeTopMembers cur rest

/-- The value of the slice in a state: the cells below its length. -/
def SliceState.value (st : SliceState) : CFApps :=
  ⟨st.cells.take st.len⟩

/-- Decode a value into a zero `CFApps`. -/
def decodeCFApps : JValue → Except JsonError CFApps
  | JValue.null => Except.ok ⟨[]⟩
  | JValue.object members => (decodeTopMembers ⟨[], 0⟩ members).map SliceState.value
  | v => Except.error (JsonError.unmarshalTypeError v.kind "main.CFApps")

/-- Go `json.Unmarshal([]byte(data), &cfApps)` with `var cfApps CFApps`:
the error, or the value decoded. -/
def Unmarshal (data : String) : Except JsonError CFApps :=
  match parseJSON data with
  | none => Except.error JsonError.syntaxError
  | some v => decodeCFApps v

/-! ## The environment of a run -/

/-- A Go `error` value.  The plugin only tests it against nil and prints it,
so it is known by the text of its `Error()` method. -/
structure GoError where
  Error : String
  deriving DecidableEq, Repr

/-- The field of `plugin_models.Space` the plugin reads. -/
structure Space where
  Guid : String
  deriving DecidableEq, Repr

/-- The two methods of `plugin.CliConnection` the plugin calls, as the answers
the host gives.  A Go result pair `(value, err)` is `Except.error err` when
`err` is not nil, and `Except.ok value` otherwise. -/
structure CliConnection where
  GetCurrentSpace : Except GoError Space
  CliCommandWithoutTerminalOutput : List String → Except GoError (List String)

/-- What the run takes from the Go runtime and standard library and this
development does not compute. -/
structure GoRuntime where
  /-- The error value `json.Unmarshal` builds for an input text and the way
  decoding it fails. -/
  jsonError : String → JsonError → GoError
  /-- The table of `strconv.IsPrint` for characters above U+00FF. -/
  isPrintWide : Char → Bool
  /-- The two readings of `time.Now().UnixMilli()` in `Run`. -/
  startMilli : Int
  endMilli : Int
  /-- The text of the `%v` verb for `float32(endMilli - startMilli) / 1000`. -/
  formatSeconds : Int → Int → String

/-- A call made to the host. -/
inductive HostCall where
  | GetCurrentSpace : HostCall
  | CliCommandWithoutTerminalOutput (args : List String) : HostCall
  deriving DecidableEq, Repr

/-- How a piece of the program ends: it returns to its caller, it ends the
process through `os.Exit`, or it panics (run-time fault). -/
inductive Termination where
  | returned : Termination
  | exited (status : Int) : Termination
  | panicked : Termination
  deriving DecidableEq, Repr

/-- What a piece of the program is observed to do. -/
structure Outcome where
  /-- The texts written to standard output, one per `fmt` call. -/
  stdout : List String
  /-- The calls made to the host, in order. -/
  calls : List HostCall
  term : Termination
  deriving DecidableEq, Repr

/-! ## The plugin -/

/-- Go `fmt.Println(x)` for one operand: its text and a newline. -/
def Println (x : String) : String := x ++ "\n"

/-- Go `logError`: `fmt.Println(prefix)` then `fmt.Println(err)`. -/
def logError (pfx : String) (err : GoError) : List String :=
  [Println pfx, Println err.Error]

/-- The text of `fmt.Printf("[Name:%q, State:%q]\n", app.Name, app.State)`. -/
def matchLine (rt : GoRuntime) (app : CFApp) : String :=
  "[Name:" ++ Quote rt.isPrintWide app.Name ++ ", State:" ++
    Quote rt.isPrintWide app.State ++ "]\n"

/-- The text of `fmt.Printf("\nTook %vs\n", timeTaken)`. -/
def tookLine (rt : GoRuntime) : String :=
  "\nTook " ++ rt.formatSeconds rt.startMilli rt.endMilli ++ "s\n"

/-- The usage message of `validateInput`. -/
def usageMessage : String :=
  "Invalid usage. Please use run 'cf find-app -h' to get usage info"

/-- Go `validateInput`: what it prints, and the exit status when it ends the
process. -/
def validateInput (args : List String) : List String × Option Int :=
  if args.length ≠ 2 then ([Println usageMessage], some 0) else ([], none)

/-- Go `parseCFApps`: what it prints and the pair it returns. -/
def parseCFApps (rt : GoRuntime) (inputString : String) :
    List String × CFApps × Option GoError :=
  match Unmarshal inputString with
  | Except.error e =>
    (logError "Unable to parse response " (rt.jsonError inputString e), ⟨[]⟩,
      some (rt.jsonError inputString e))
  | Except.ok cfApps => ([], cfApps, none)

/-- The loop `for _, app := range cfAppsWrapper.CFApps` of `process`: the
lines printed and how the loop ends.  Reading `app.Name` through a nil pointer
panics. -/
def printMatches (rt : GoRuntime) (searchString : String) :
    List (Option CFApp) → List String × Termination
  | [] => ([], Termination.returned)
  | none :: _ => ([], Termination.panicked)
  | some app :: rest =>
    let r := printMatches rt searchString rest
    if Contains app.Name searchString then (matchLine rt app :: r.1, r.2) else r

/-- The records of a collection that stand before its first nil element: the
ones the loop of `process` reaches. -/
def recordsBeforeNil : List (Option CFApp) → List CFApp
  | [] => []
  | none :: _ => []
  | some app :: rest => app :: recordsBeforeNil rest

/-- The path of the request, `fmt.Sprintf("/v3/apps?space_guids=%v&per_page=5000", space.Guid)`. -/
def appsUrl (space : Space) : String :=
  "/v3/apps?space_guids=" ++ space.Guid ++ "&per_page=5000"

/-- Go `process`. -/
def process (rt : GoRuntime) (cliConnection : CliConnection) (searchString : String) :
    Outcome :=
  match cliConnection.GetCurrentSpace with
  | Except.error err =>
    ⟨logError "Unable to get current space due to " err,
      [HostCall.GetCurrentSpace], Termination.returned⟩
  | Except.ok space =>
    let url := appsUrl space
    let calls := [HostCall.GetCurrentSpace, HostCall.CliCommandWithoutTerminalOutput ["curl", url]]
    match cliConnection.CliCommandWithoutTerminalOutput ["curl", url] with
    | Except.error err =>
      ⟨logError ("Unable to execute cf curl " ++ url) err, calls, Termination.returned⟩
    | Except.ok lines =>
      let result := Join lines
      match parseCFApps rt result with
      | (printed, _, some err) =>
        ⟨printed ++ logError ("Json parse error for result " ++ result) err, calls,
          Termination.returned⟩
      | (printed, cfAppsWrapper, none) =>
        let r := printMatches rt searchString cfAppsWrapper.CFApps
        ⟨printed ++ r.1, calls, r.2⟩

/-- Go `Run`.  `args[1]` panics when the index is out of range. -/
def Run (rt : GoRuntime) (cliConnection : CliConnection) (args : List String) : Outcome :=
  match validateInput args with
  | (printed, some status) => ⟨printed, [], Termination.exited status⟩
  | (printed, none) =>
    match args.get? 1 with
    | none => ⟨printed, [], Termination.panicked⟩
    | some searchString =>
      let r := process rt cliConnection searchString
      match r.term with
      | Termination.returned => ⟨printed ++ r.stdout ++ [tookLine rt], r.calls, Termination.returned⟩
      | t => ⟨printed ++ r.stdout, r.calls, t⟩

/-! ## Concrete environments used in the worked scenarios -/

/-- A runtime for the scenarios: decoding errors are named by their kind, no
character above U+00FF counts as printable, the run takes 1.5 seconds. -/
def demoRuntime : GoRuntime where
  jsonError := fun _ e =>
    match e with
    | JsonError.syntaxError => ⟨"json: syntax error"⟩
    | JsonError.unmarshalTypeError v t => ⟨"json: cannot unmarshal " ++ v ++ " into Go value of type " ++ t⟩
  isPrintWide := fun _ => false
  startMilli := 0
  endMilli := 1500
  formatSeconds := fun _ _ => "1.5"

/-- A host that targets space `space-123` and answers every raw command with
the given lines. -/
def hostAnswering (lines : List String) : CliConnection where
  GetCurrentSpace := Except.ok ⟨"space-123"⟩
  CliCommandWithoutTerminalOutput := fun _ => Except.ok lines

/-- A host with no targeted space. -/
def hostWithoutSpace : CliConnection where
  GetCurrentSpace := Except.error ⟨"No space targeted"⟩
  CliCommandWithoutTerminalOutput := fun _ => Except.ok []

/-- A host that targets space `space-123` and fails every raw command. -/
def hostFailingCurl : CliConnection where
  GetCurrentSpace := Except.ok ⟨"space-123"⟩
  CliCommandWithoutTerminalOutput := fun _ => Except.error ⟨"connection refused"⟩

/-- The response of scenario 6 of the specification, delivered in two lines. -/
def scenarioLines : List String :=
  ["\x7b\"resources\":[\x7b\"name\":\"api-gateway\",\"guid\":\"g1\",\"state\":\"STARTED\"\x7d,",
   "\x7b\"name\":\"worker\",\"guid\":\"g2\",\"state\":\"STOPPED\"\x7d]\x7d"]

/-! ## The JSON types the target accepts -/

/-- A value a Go `string` accepts: a JSON string or `null`. -/
def fitsString : JValue → Bool
  | JValue.string _ => true
  | JValue.null => true
  | _ => false

/-- Whether an object key selects one of the fields of `CFApp`. -/
def isAppField (key : String) : Bool :=
  keyMatches "Name" key || keyMatches "Guid" key || keyMatches "State" key

/-- A value a `*CFApp` accepts: `null`, or an object in which every member
that selects a field holds a value a `string` accepts. -/
def fitsApp : JValue → Bool
  | JValue.null => true
  | JValue.object members => members.all fun m => !isAppField m.1 || fitsString m.2
  | _ => false

/-- A value a `[]*CFApp` accepts: `null`, or an array of values a `*CFApp`
accepts. -/
def fitsSlice : JValue → Bool
  | JValue.null => true
  | JValue.array elems => elems.all fitsApp
  | _ => false

/-- A value a `CFApps` accepts: `null`, or an object in which every member
under the key `resources` holds a value a `[]*CFApp` accepts. -/
def fitsCFApps : JValue → Bool
  | JValue.null => true
  | JValue.object members => members.all fun m => !keyMatches "resources" m.1 || fitsSlice m.2
  | _ => false

/-- Whether a decoding step succeeded. -/
def succeeded {α : Type} : Except JsonError α → Bool
  | Except.ok _ => true
  | Except.error _ => false

/-! ## Encoding records as JSON

The text of the round trip, following the specification: the object
`{"resources":[...]}` whose array holds one object
`{"name":...,"guid":...,"state":...}` per record, in order.  In a string the
double quote and the backslash are escaped by a backslash and a control
character below U+0020 is written `\u00XX`; every other character stands for
itself. -/

/-- The JSON text of one character of a string. -/
def encodeChar (c : Char) : List Char :=
  if c = dquote then [backslash, dquote]
  else if c = backslash then [backslash, backslash]
  else if c.toNat < 0x20 then backslash :: 'u' :: hexDigits 4 c.toNat
  else [c]

/-- The JSON string literal of `s`. -/
def encodeString (s : String) : List Char :=
  dquote :: (s.data.flatMap encodeChar ++ [dquote])

/-- The JSON object of one record. -/
def encodeApp (a : CFApp) : List Char :=
  '{' :: (encodeString "name" ++ ':' :: (encodeString a.Name ++ ',' ::
    (encodeString "guid" ++ ':' :: (encodeString a.Guid ++ ',' ::
      (encodeString "state" ++ ':' :: (encodeString a.State ++ ['}']))))))

/-- The JSON objects of the records, separated by commas. -/
def encodeApps : List CFApp → List Char
  | [] => []
  | [a] => encodeApp a
  | a :: b :: rest => encodeApp a ++ ',' :: encodeApps (b :: rest)

/-- The JSON text `{"resources":[...]}` of a list of records. -/
def encodeCFApps (L : List CFApp) : String :=
  ⟨'{' :: (encodeString "resources" ++ ':' :: '[' :: (encodeApps L ++ [']', '}']))⟩

/-- The JSON value of the object `encodeApp` writes. -/
def appValue (a : CFApp) : JValue :=
  JValue.object [("name", JValue.string a.Name), ("guid", JValue.string a.Guid),
    ("state", JValue.string a.State)]

/-! ## Auxiliary facts -/

theorem startsWith_iff (p s : List Char) : startsWith p s = true ↔ ∃ t, s = p ++ t := by
  induction p generalizing s with
  | nil => simp [startsWith]
  | cons a p ih =>
    cases s with
    | nil => simp [startsWith]
    | cons c cs =>
      simp only [startsWith, Bool.and_eq_true, beq_iff_eq, ih, List.cons_append, List.cons.injEq]
      constructor
      · rintro ⟨rfl, t, rfl⟩
        exact ⟨t, rfl, rfl⟩
      · rintro ⟨t, rfl, rfl⟩
        exact ⟨rfl, t, rfl⟩

theorem containsChars_iff (sub s : List Char) :
    containsChars sub s = true ↔ ∃ front back, s = front ++ sub ++ back := by
  induction s with
  | nil =>
    simp only [containsChars, startsWith_iff]
    constructor
    · rintro ⟨t, ht⟩
      exact ⟨[], t, by simpa using ht⟩
    · rintro ⟨front, back, h⟩
      have h1 : front ++ (sub ++ back) = [] := by simpa using h.symm
      have h2 := List.append_eq_nil.mp h1
      have h3 := List.append_eq_nil.mp h2.2
      exact ⟨[], by simp [h3.1]⟩
  | cons c cs ih =>
    simp only [containsChars, Bool.or_eq_true, startsWith_iff, ih]
    constructor
    · rintro (⟨t, ht⟩ | ⟨front, back, h⟩)
      · exact ⟨[], t, by simpa using ht⟩
      · exact ⟨c :: front, back, by simp [h]⟩
    · rintro ⟨front, back, h⟩
      cases front with
      | nil => exact Or.inl ⟨back, by simpa using h⟩
      | cons a front =>
        simp only [List.cons_append, List.cons.injEq] at h
        exact Or.inr ⟨front, back, by simpa using h.2⟩

theorem printMatches_records (rt : GoRuntime) (s : String) (L : List CFApp) :
    printMatches rt s (L.map some) =
      ((L.filter fun r => Contains r.Name s).map (matchLine rt), Termination.returned) := by
  induction L with
  | nil => rfl
  | cons a L ih =>
    simp only [List.map_cons, printMatches, ih]
    by_cases h : Contains a.Name s = true
    · simp [h]
    · simp [h]

theorem printMatches_eq (rt : GoRuntime) (s : String) (apps : List (Option CFApp)) :
    printMatches rt s apps =
      (((recordsBeforeNil apps).filter fun r => Contains r.Name s).map (matchLine rt),
        if apps.all Option.isSome then Termination.returned else Termination.panicked) := by
  induction apps with
  | nil => rfl
  | cons a rest ih =>
    cases a with
    | none => rfl
    | some app =>
      simp only [printMatches, ih, recordsBeforeNil, List.all_cons, Option.isSome_some,
        Bool.true_and]
      by_cases h : Contains app.Name s = true
      · simp [h]
      · simp [h]

/-! ## The fuel of the parser

The parsing functions recurse on a fuel argument.  Every recursive call is on
a shorter text or is the first call on the same text, so the fuel `parseJSON`
starts with is never used up: a larger fuel gives the same result, and a
failure is a failure of the syntax, not of the fuel. -/

theorem skipSpace_length_le (cs : List Char) : (skipSpace cs).length ≤ cs.length := by
  induction cs with
  | nil => simp [skipSpace]
  | cons c cs ih =>
    simp only [skipSpace]
    split
    · simp only [List.length_cons]; omega
    · simp

theorem skipDigits_length_le (cs : List Char) : (skipDigits cs).length ≤ cs.length := by
  induction cs with
  | nil => simp [skipDigits]
  | cons c cs ih =>
    simp only [skipDigits]
    split
    · simp only [List.length_cons]; omega
    · simp

theorem digits1_length (cs rest : List Char) (h : digits1 cs = some rest) :
    rest.length < cs.length := by
  cases cs with
  | nil => simp [digits1] at h
  | cons c cs =>
    simp only [digits1] at h
    split at h
    · simp only [Option.some.injEq] at h
      subst h
      have := skipDigits_length_le cs
      simp only [List.length_cons]; omega
    · simp at h

theorem scanInt_length (cs rest : List Char) (h : scanInt cs = some rest) :
    rest.length < cs.length := by
  cases cs with
  | nil => simp [scanInt] at h
  | cons c cs =>
    simp only [scanInt] at h
    split at h
    · simp only [Option.some.injEq] at h
      subst h
      simp
    · split at h
      · simp only [Option.some.injEq] at h
        subst h
        have := skipDigits_length_le cs
        simp only [List.length_cons]; omega
      · simp at h

theorem scanFrac_length (cs rest : List Char) (h : scanFrac cs = some rest) :
    rest.length ≤ cs.length := by
  cases cs with
  | nil =>
    simp only [scanFrac, Option.some.injEq] at h
    subst h
    simp
  | cons c cs =>
    simp only [scanFrac] at h
    split at h
    · have := digits1_length cs rest h
      simp only [List.length_cons]; omega
    · simp only [Option.some.injEq] at h
      subst h
      simp

theorem scanExp_length (cs rest : List Char) (h : scanExp cs = some rest) :
    rest.length ≤ cs.length := by
  cases cs with
  | nil =>
    simp only [scanExp, Option.some.injEq] at h
    subst h
    simp
  | cons c cs =>
    simp only [scanExp] at h
    split at h
    · cases cs with
      | nil => simp at h
      | cons s tl =>
        simp only at h
        split at h
        · have := digits1_length tl rest h
          simp only [List.length_cons]; omega
        · have := digits1_length (s :: tl) rest h
          simp only [List.length_cons] at this ⊢; omega
    · simp only [Option.some.injEq] at h
      subst h
      simp

theorem scanNumber_length (cs rest : List Char) (h : scanNumber cs = some rest) :
    rest.length < cs.length := by
  cases cs with
  | nil => simp [scanNumber] at h
  | cons c cs =>
    simp only [scanNumber] at h
    cases h1 : scanInt (if c = '-' then cs else c :: cs) with
    | none => simp [h1] at h
    | some r1 =>
      simp only [h1] at h
      cases h2 : scanFrac r1 with
      | none => simp [h2] at h
      | some r2 =>
        simp only [h2] at h
        have l1 := scanInt_length _ _ h1
        have l2 := scanFrac_length _ _ h2
        have l3 := scanExp_length _ _ h
        have l0 : (if c = '-' then cs else c :: cs).length ≤ (c :: cs).length := by
          split <;> simp
        omega

theorem expect_length (lit cs rest : List Char) (h : expect lit cs = some rest) :
    rest.length ≤ cs.length := by
  induction lit generalizing cs with
  | nil =>
    simp only [expect, Option.some.injEq] at h
    subst h
    exact Nat.le_refl _
  | cons l ls ih =>
    cases cs with
    | nil => simp [expect] at h
    | cons c cs =>
      simp only [expect] at h
      split at h
      · have := ih cs h
        simp only [List.length_cons]; omega
      · simp at h

theorem scanString_length (f : Nat) (cs s rest : List Char)
    (h : scanString f cs = some (s, rest)) : rest.length < cs.length := by
  induction f generalizing cs s rest with
  | zero => simp [scanString] at h
  | succ f ih =>
    cases cs with
    | nil => simp [scanString] at h
    | cons c cs =>
      have key : ∀ (X : List Char) (x : Char), X.length ≤ cs.length →
          (scanString f X).map (fun p => (x :: p.1, p.2)) = some (s, rest) →
          rest.length < (c :: cs).length := by
        intro X x hX hm
        cases hp : scanString f X with
        | none => simp [hp] at hm
        | some p =>
          obtain ⟨s1, r1⟩ := p
          simp only [hp, Option.map_some', Option.some.injEq, Prod.mk.injEq] at hm
          have := ih X s1 r1 hp
          obtain ⟨_, rfl⟩ := hm
          simp only [List.length_cons]; omega
      simp only [scanString] at h
      repeat' split at h
      all_goals first
        | (simp at h; done)
        | (simp only [Option.some.injEq, Prod.mk.injEq] at h; obtain ⟨_, rfl⟩ := h; simp)
        | (exact key _ _ (by first | exact Nat.le_refl _ | (simp only [List.length_cons]; omega)) h)

theorem scanString_fuel (f g : Nat) (cs : List Char)
    (hf : cs.length + 1 ≤ f) (hg : cs.length + 1 ≤ g) :
    scanString f cs = scanString g cs := by
  induction f generalizing g cs with
  | zero => omega
  | succ f ih =>
    obtain ⟨g1, rfl⟩ : ∃ g1, g = g1 + 1 := ⟨g - 1, by omega⟩
    cases cs with
    | nil => simp [scanString]
    | cons c cs =>
      have key : ∀ X : List Char, X.length ≤ cs.length →
          scanString f X = scanString g1 X := by
        intro X hX
        simp only [List.length_cons] at hf hg
        exact ih g1 X (by omega) (by omega)
      simp only [scanString]
      repeat' split
      all_goals first
        | rfl
        | (rw [key _ (by first | exact Nat.le_refl _ | (simp only [List.length_cons]; omega))])

theorem map_eq_some_length {α β : Type} (o : Option (α × List Char)) (g : α → β)
    (b : β) (rest : List Char)
    (h : o.map (fun p => (g p.1, p.2)) = some (b, rest)) :
    ∃ a, o = some (a, rest) := by
  cases o with
  | none => simp at h
  | some p =>
    obtain ⟨a, r⟩ := p
    simp only [Option.map_some', Option.some.injEq, Prod.mk.injEq] at h
    exact ⟨a, by rw [h.2]⟩

theorem parse_length (f : Nat) :
    (∀ depth cs v rest, parseValue f depth cs = some (v, rest) → rest.length < cs.length) ∧
    (∀ depth cs vs rest, parseElems f depth cs = some (vs, rest) → rest.length < cs.length) ∧
    (∀ depth cs ms rest, parseMembers f depth cs = some (ms, rest) →
      rest.length < cs.length) := by
  induction f with
  | zero =>
    refine ⟨?_, ?_, ?_⟩ <;> intro depth cs v rest h
    · simp [parseValue] at h
    · simp [parseElems] at h
    · simp [parseMembers] at h
  | succ f ih =>
    obtain ⟨ihV, ihE, ihM⟩ := ih
    refine ⟨?_, ?_, ?_⟩
    · intro depth cs v rest h
      cases cs with
      | nil => simp [parseValue] at h
      | cons c cs =>
        simp only [parseValue] at h
        have hsk := skipSpace_length_le cs
        split at h
        · split at h
          · simp at h
          · split at h
            · simp at h
            · rename_i d ds hds
              rw [hds] at hsk
              split at h
              · simp only [Option.some.injEq, Prod.mk.injEq] at h
                obtain ⟨_, rfl⟩ := h
                simp only [List.length_cons] at hsk ⊢; omega
              · obtain ⟨a, ha⟩ := map_eq_some_length _ JValue.object _ _ h
                have := ihM _ _ _ _ ha
                simp only [List.length_cons] at hsk this ⊢; omega
        · split at h
          · split at h
            · simp at h
            · split at h
              · simp at h
              · rename_i d ds hds
                rw [hds] at hsk
                split at h
                · simp only [Option.some.injEq, Prod.mk.injEq] at h
                  obtain ⟨_, rfl⟩ := h
                  simp only [List.length_cons] at hsk ⊢; omega
                · obtain ⟨a, ha⟩ := map_eq_some_length _ JValue.array _ _ h
                  have := ihE _ _ _ _ ha
                  simp only [List.length_cons] at hsk this ⊢; omega
          · split at h
            · obtain ⟨a, ha⟩ := map_eq_some_length _ (fun s => JValue.string ⟨s⟩) _ _ h
              have := scanString_length _ _ _ _ ha
              simp only [List.length_cons]; omega
            · have hlit : ∀ (lit : List Char) (b : JValue),
                  (expect lit cs).map (fun r => (b, r)) = some (v, rest) →
                  rest.length < (c :: cs).length := by
                intro lit b hm
                cases he : expect lit cs with
                | none => simp [he] at hm
                | some r =>
                  simp only [he, Option.map_some', Option.some.injEq, Prod.mk.injEq] at hm
                  have := expect_length lit cs r he
                  obtain ⟨_, rfl⟩ := hm
                  simp only [List.length_cons]; omega
              split at h
              · exact hlit _ _ h
              · split at h
                · exact hlit _ _ h
                · split at h
                  · exact hlit _ _ h
                  · cases hn : scanNumber (c :: cs) with
                    | none => simp [hn] at h
                    | some r =>
                      simp only [hn, Option.map_some', Option.some.injEq, Prod.mk.injEq] at h
                      have := scanNumber_length _ _ hn
                      obtain ⟨_, rfl⟩ := h
                      exact this
    · intro depth cs vs rest h
      simp only [parseElems] at h
      split at h
      · simp at h
      · rename_i v r1 hv
        have l1 := ihV _ _ _ _ hv
        have hsk := skipSpace_length_le r1
        split at h
        · simp at h
        · rename_i d ds hds
          rw [hds] at hsk
          split at h
          · obtain ⟨a, ha⟩ := map_eq_some_length _ (fun l => v :: l) _ _ h
            have := ihE _ _ _ _ ha
            have := skipSpace_length_le ds
            simp only [List.length_cons] at hsk; omega
          · split at h
            · simp only [Option.some.injEq, Prod.mk.injEq] at h
              obtain ⟨_, rfl⟩ := h
              simp only [List.length_cons] at hsk; omega
            · simp at h
    · intro depth cs ms rest h
      cases cs with
      | nil => simp [parseMembers] at h
      | cons c cs =>
        simp only [parseMembers] at h
        split at h
        · split at h
          · simp at h
          · rename_i key r0 hk
            have l0 := scanString_length _ _ _ _ hk
            have hsk0 := skipSpace_length_le r0
            split at h
            · simp at h
            · rename_i d ds hds
              rw [hds] at hsk0
              split at h
              · split at h
                · simp at h
                · rename_i v r1 hv
                  have l1 := ihV _ _ _ _ hv
                  have hsk1 := skipSpace_length_le ds
                  have hsk2 := skipSpace_length_le r1
                  split at h
                  · simp at h
                  · rename_i e es hes
                    rw [hes] at hsk2
                    split at h
                    · obtain ⟨a, ha⟩ :=
                        map_eq_some_length _ (fun l => ((⟨key⟩ : String), v) :: l) _ _ h
                      have := ihM _ _ _ _ ha
                      have := skipSpace_length_le es
                      simp only [List.length_cons] at hsk0 hsk2 ⊢; omega
                    · split at h
                      · simp only [Option.some.injEq, Prod.mk.injEq] at h
                        obtain ⟨_, rfl⟩ := h
                        simp only [List.length_cons] at hsk0 hsk2 ⊢; omega
                      · simp at h
              · simp at h
        · simp at h

theorem parse_fuel (f : Nat) :
    (∀ g depth cs, 2 * cs.length ≤ f → 2 * cs.length ≤ g →
      parseValue f depth cs = parseValue g depth cs) ∧
    (∀ g depth cs, 2 * cs.length + 1 ≤ f → 2 * cs.length + 1 ≤ g →
      parseElems f depth cs = parseElems g depth cs) ∧
    (∀ g depth cs, 2 * cs.length + 1 ≤ f → 2 * cs.length + 1 ≤ g →
      parseMembers f depth cs = parseMembers g depth cs) := by
  induction f with
  | zero =>
    refine ⟨?_, ?_, ?_⟩
    · intro g depth cs hf hg
      have hcs : cs = [] := List.length_eq_zero.mp (by omega)
      subst hcs
      cases g <;> simp [parseValue]
    · intro g depth cs hf hg
      omega
    · intro g depth cs hf hg
      omega
  | succ f ih =>
    obtain ⟨ihV, ihE, ihM⟩ := ih
    refine ⟨?_, ?_, ?_⟩
    · intro g depth cs hf hg
      cases cs with
      | nil => cases g <;> simp [parseValue]
      | cons c cs =>
        simp only [List.length_cons] at hf hg
        obtain ⟨g1, rfl⟩ : ∃ g1, g = g1 + 1 := ⟨g - 1, by omega⟩
        simp only [parseValue]
        have hsk := skipSpace_length_le cs
        split
        · split
          · rfl
          · split
            · rfl
            · rename_i d0 ds hds
              rw [hds] at hsk
              simp only [List.length_cons] at hsk
              split
              · rfl
              · rw [ihM g1 (depth + 1) (d0 :: ds)
                  (by simp only [List.length_cons]; omega)
                  (by simp only [List.length_cons]; omega)]
        · split
          · split
            · rfl
            · split
              · rfl
              · rename_i d0 ds hds
                rw [hds] at hsk
                simp only [List.length_cons] at hsk
                split
                · rfl
                · rw [ihE g1 (depth + 1) (d0 :: ds)
                    (by simp only [List.length_cons]; omega)
                    (by simp only [List.length_cons]; omega)]
          · rfl
    · intro g depth cs hf hg
      obtain ⟨g1, rfl⟩ : ∃ g1, g = g1 + 1 := ⟨g - 1, by omega⟩
      simp only [parseElems]
      rw [ihV g1 depth cs (by omega) (by omega)]
      split
      · rfl
      · rename_i v r1 hv
        have l1 := (parse_length g1).1 _ _ _ _ hv
        have hsk := skipSpace_length_le r1
        split
        · rfl
        · rename_i d0 ds hds
          rw [hds] at hsk
          simp only [List.length_cons] at hsk
          have := skipSpace_length_le ds
          split
          · rw [ihE g1 depth (skipSpace ds) (by omega) (by omega)]
          · rfl
    · intro g depth cs hf hg
      obtain ⟨g1, rfl⟩ : ∃ g1, g = g1 + 1 := ⟨g - 1, by omega⟩
      cases cs with
      | nil => simp [parseMembers]
      | cons c cs =>
        simp only [List.length_cons] at hf hg
        simp only [parseMembers]
        split
        · split
          · rfl
          · rename_i key r0 hk
            have l0 := scanString_length _ _ _ _ hk
            have hsk0 := skipSpace_length_le r0
            split
            · rfl
            · rename_i d0 ds hds
              rw [hds] at hsk0
              simp only [List.length_cons] at hsk0
              have hsk1 := skipSpace_length_le ds
              split
              · rw [ihV g1 depth (skipSpace ds) (by omega) (by omega)]
                split
                · rfl
                · rename_i v r1 hv
                  have l1 := (parse_length g1).1 _ _ _ _ hv
                  have hsk2 := skipSpace_length_le r1
                  split
                  · rfl
                  · rename_i e es hes
                    rw [hes] at hsk2
                    simp only [List.length_cons] at hsk2
                    have := skipSpace_length_le es
                    split
                    · rw [ihM g1 depth (skipSpace es) (by omega) (by omega)]
                    · rfl
              · rfl
        · rfl

theorem parseJSON_fuel (data : String) (g : Nat) (hg : 2 * data.data.length + 2 ≤ g) :
    parseValue g 0 (skipSpace data.data) =
      parseValue (2 * data.data.length + 2) 0 (skipSpace data.data) := by
  have h := skipSpace_length_le data.data
  exact ((parse_fuel g).1 _ 0 _ (by omega) (by omega))

/-! ## C1: the filter -/

/-- C1 fails on a response with a null element: the response
`{"resources":[null,{"name":"api","state":"S"}]}` decodes without error to a
collection whose second element is a record named `api`, the search string
`api` is contained in that name, and `process` prints no line for it: the
loop reads `app.Name` through the nil first element and panics. -/
theorem process_null_before_match_panics :
    Unmarshal "\x7b\"resources\":[null,\x7b\"name\":\"api\",\"state\":\"S\"\x7d]\x7d" =
        Except.ok ⟨[none, some ⟨"api", "", "S"⟩]⟩ ∧
    Contains "api" "api" = true ∧
    process demoRuntime
        (hostAnswering ["\x7b\"resources\":[null,\x7b\"name\":\"api\",\"state\":\"S\"\x7d]\x7d"])
        "api" =
      ⟨[], [HostCall.GetCurrentSpace,
            HostCall.CliCommandWithoutTerminalOutput
              ["curl", "/v3/apps?space_guids=space-123&per_page=5000"]],
        Termination.panicked⟩ := by
  refine ⟨rfl, by decide, rfl⟩

/-- The filter on any decoded collection: `process` prints the match lines of
the records that stand before the first nil element and whose `Name` contains
the search string, in order, and it returns when no element is nil and panics
otherwise. -/
theorem process_prints_records_before_nil (rt : GoRuntime) (cli : CliConnection)
    (searchString : String) (space : Space) (lines : List String) (apps : CFApps)
    (hs : cli.GetCurrentSpace = Except.ok space)
    (hc : cli.CliCommandWithoutTerminalOutput ["curl", appsUrl space] = Except.ok lines)
    (hd : Unmarshal (Join lines) = Except.ok apps) :
    (process rt cli searchString).stdout =
        ((recordsBeforeNil apps.CFApps).filter fun r => Contains r.Name searchString).map
          (matchLine rt) ∧
    (process rt cli searchString).term =
        if apps.CFApps.all Option.isSome then Termination.returned
        else Termination.panicked := by
  simp only [process, hs, hc, parseCFApps, hd, printMatches_eq]
  simp

/-- The filter on a collection of present records: when the joined response
decodes to the records `L` (in response order), none of them nil, the lines
printed by `process` are the match lines of exactly those records of `L` whose
`Name` contains the search string, in the order of `L`; `Contains` holds
exactly when the search string occurs in the name as a contiguous run of the
same characters; the `State` plays no part in the test; and when no name
contains the search string nothing is printed. -/
theorem process_prints_matching_records (rt : GoRuntime) (cli : CliConnection)
    (searchString : String) (space : Space) (lines : List String) (L : List CFApp)
    (hs : cli.GetCurrentSpace = Except.ok space)
    (hc : cli.CliCommandWithoutTerminalOutput ["curl", appsUrl space] = Except.ok lines)
    (hd : Unmarshal (Join lines) = Except.ok ⟨L.map some⟩) :
    (process rt cli searchString).stdout =
        (L.filter fun r => Contains r.Name searchString).map (matchLine rt) ∧
    (∀ r : CFApp, Contains r.Name searchString = true ↔
        ∃ front back, r.Name.data = front ++ searchString.data ++ back) ∧
    (∀ (r : CFApp) (state : String),
        Contains ({ r with State := state }).Name searchString = Contains r.Name searchString) ∧
    ((∀ r ∈ L, ¬ ∃ front back, r.Name.data = front ++ searchString.data ++ back) →
        (process rt cli searchString).stdout = []) := by
  have hout : (process rt cli searchString).stdout =
      (L.filter fun r => Contains r.Name searchString).map (matchLine rt) := by
    simp only [process, hs, hc, parseCFApps, hd, printMatches_records]
    simp
  refine ⟨hout, fun r => containsChars_iff _ _, fun _ _ => rfl, ?_⟩
  intro hnone
  rw [hout]
  have : (L.filter fun r => Contains r.Name searchString) = [] := by
    rw [List.filter_eq_nil_iff]
    intro r hr hcon
    exact hnone r hr ((containsChars_iff _ _).mp hcon)
  rw [this]
  rfl

/-- Scenario 6 of the specification: of `api-gateway` and `worker`, the search
string `api` selects the first, and the search string `API` selects none. -/
theorem process_prints_matching_records_witness :
    (process demoRuntime (hostAnswering scenarioLines) "api").stdout =
      ["[Name:\"api-gateway\", State:\"STARTED\"]\n"] ∧
    (process demoRuntime (hostAnswering scenarioLines) "API").stdout = [] :=
  ⟨(process_prints_matching_records demoRuntime (hostAnswering scenarioLines) "api"
      ⟨"space-123"⟩ scenarioLines
      [⟨"api-gateway", "g1", "STARTED"⟩, ⟨"worker", "g2", "STOPPED"⟩] rfl rfl rfl).1,
   (process_prints_matching_records demoRuntime (hostAnswering scenarioLines) "API"
      ⟨"space-123"⟩ scenarioLines
      [⟨"api-gateway", "g1", "STARTED"⟩, ⟨"worker", "g2", "STOPPED"⟩] rfl rfl rfl).2.2.2
      (by
        intro r hr h
        have hc : Contains r.Name "API" = true := (containsChars_iff _ _).mpr h
        simp only [List.mem_cons, List.mem_singleton, List.not_mem_nil, or_false] at hr
        rcases hr with rfl | rfl
        · exact absurd hc (by decide)
        · exact absurd hc (by decide))⟩

/-! ## C2: argument validation -/

/-- C2: when the argument list does not have exactly two elements, `Run`
prints the usage message and nothing else, makes no host call and ends the
process with status 0 (it does not reach the read of `args[1]`); when it has
exactly two, `validateInput` prints nothing, does not exit, and `Run` goes on
to `process` with `args[1]`. -/
theorem Run_validates_argument_count (rt : GoRuntime) (cli : CliConnection)
    (args : List String) :
    (args.length ≠ 2 →
      Run rt cli args =
        ⟨["Invalid usage. Please use run 'cf find-app -h' to get usage info\n"], [],
          Termination.exited 0⟩) ∧
    (args.length = 2 →
      validateInput args = ([], none) ∧
      ∃ searchString, args.get? 1 = some searchString ∧
        (Run rt cli args).calls = (process rt cli searchString).calls ∧
        (process rt cli searchString).stdout <+: (Run rt cli args).stdout) := by
  constructor
  · intro h
    simp [Run, validateInput, h, Println, usageMessage]
  · intro h
    match args, h with
    | [a, b], _ =>
      refine ⟨rfl, b, rfl, ?_, ?_⟩
      · simp only [Run, validateInput]
        cases hp : (process rt cli b).term <;> simp [hp]
      · simp only [Run, validateInput]
        cases hp : (process rt cli b).term <;> simp [hp]

/-- Witness of C2 on the empty argument list and on `["find-app", "api"]`. -/
theorem Run_validates_argument_count_witness :
    Run demoRuntime hostWithoutSpace [] =
        ⟨["Invalid usage. Please use run 'cf find-app -h' to get usage info\n"], [],
          Termination.exited 0⟩ ∧
    validateInput ["find-app", "api"] = ([], none) :=
  ⟨(Run_validates_argument_count demoRuntime hostWithoutSpace []).1 (by decide),
   ((Run_validates_argument_count demoRuntime hostWithoutSpace ["find-app", "api"]).2
      (by decide)).1⟩

/-! ## C3: the match line -/

theorem hexDigits_length (w n : Nat) : (hexDigits w n).length = w := by
  induction w generalizing n with
  | zero => rfl
  | succ w ih => simp [hexDigits, ih]

theorem escapeRune_plain (wide : Char → Bool) (c : Char) (h : plainChar wide c = true) :
    escapeRune wide c = [c] := by
  simp only [plainChar, Bool.and_eq_true, decide_eq_true_eq] at h
  obtain ⟨⟨h1, h2⟩, h3⟩ := h
  unfold escapeRune
  rw [if_neg (by rintro (h | h); exact h1 h; exact h2 h), if_pos h3]

theorem two_le_length_ite {p : Prop} [Decidable p] {a b : List Char}
    (ha : 2 ≤ a.length) (hb : 2 ≤ b.length) : 2 ≤ (if p then a else b).length := by
  by_cases h : p
  · rw [if_pos h]; exact ha
  · rw [if_neg h]; exact hb

theorem escapeRune_length (wide : Char → Bool) (c : Char) :
    (plainChar wide c = true → (escapeRune wide c).length = 1) ∧
    (plainChar wide c = false → 2 ≤ (escapeRune wide c).length) := by
  constructor
  · intro h
    rw [escapeRune_plain wide c h]
    rfl
  · intro h
    unfold escapeRune
    by_cases hq : c = dquote ∨ c = backslash
    · rw [if_pos hq]
      exact Nat.le_refl 2
    · rw [if_neg hq]
      have hp : IsPrint wide c = false := by
        cases hi : IsPrint wide c with
        | false => rfl
        | true =>
          have h1 : c ≠ dquote := fun h1 => hq (Or.inl h1)
          have h2 : c ≠ backslash := fun h1 => hq (Or.inr h1)
          simp [plainChar, h1, h2, hi] at h
      rw [hp, if_neg Bool.false_ne_true]
      have e2 : ∀ x y : Char, 2 ≤ [x, y].length := fun _ _ => Nat.le_refl 2
      have eh : ∀ (x y : Char) (w n : Nat), 2 ≤ (x :: y :: hexDigits w n).length := by
        intro x y w n
        simp
      iterate 7 apply two_le_length_ite (e2 _ _)
      apply two_le_length_ite (eh _ _ _ _)
      apply two_le_length_ite (eh _ _ _ _)
      exact eh _ _ _ _

theorem flatMap_escape_length (wide : Char → Bool) (s : List Char) :
    s.length ≤ (s.flatMap (escapeRune wide)).length ∧
    ((s.flatMap (escapeRune wide)).length = s.length →
      ∀ c ∈ s, plainChar wide c = true) := by
  induction s with
  | nil => simp
  | cons c s ih =>
    simp only [List.flatMap_cons, List.length_append, List.length_cons, List.mem_cons]
    have h := escapeRune_length wide c
    cases hp : plainChar wide c with
    | true =>
      have h1 := h.1 hp
      constructor
      · omega
      · intro hlen x hx
        rcases hx with rfl | hx
        · exact hp
        · exact ih.2 (by omega) x hx
    | false =>
      have h2 := h.2 hp
      constructor
      · omega
      · intro hlen
        omega

theorem flatMap_escape_plain (wide : Char → Bool) (s : List Char)
    (h : ∀ c ∈ s, plainChar wide c = true) : s.flatMap (escapeRune wide) = s := by
  induction s with
  | nil => rfl
  | cons c s ih =>
    simp only [List.flatMap_cons]
    rw [escapeRune_plain wide c (h c (List.mem_cons_self _ _)),
      ih (fun x hx => h x (List.mem_cons_of_mem _ hx))]
    rfl

/-- C3, as stated, fails: for a record named `a"b` the line printed is
`[Name:"a\"b", State:"STARTED"]`, with the double quote of the name escaped by
a backslash, and not the record's name between double quotes. -/
theorem matchLine_verbatim_counterexample :
    (process demoRuntime
        (hostAnswering
          ["\x7b\"resources\":[\x7b\"name\":\"a\\\"b\",\"guid\":\"g1\",\"state\":\"STARTED\"\x7d]\x7d"])
        "a").stdout = ["[Name:\"a\\\"b\", State:\"STARTED\"]\n"] ∧
    matchLine demoRuntime ⟨"a\"b", "g1", "STARTED"⟩ ≠
      "[Name:\"" ++ "a\"b" ++ "\", State:\"" ++ "STARTED" ++ "\"]\n" := by
  constructor
  · rfl
  · decide

/-- C3, amended: the line printed for a record is `[Name:`, the name quoted by
`strconv.Quote`, `, State:`, the state quoted likewise, `]` and a newline; it
is the text `[Name:"n", State:"t"]` with `n` and `t` verbatim exactly when
every character of `n` and of `t` is printable and is neither a double quote
nor a backslash. -/
theorem matchLine_verbatim_iff (rt : GoRuntime) (app : CFApp) :
    matchLine rt app =
        "[Name:" ++ Quote rt.isPrintWide app.Name ++ ", State:" ++
          Quote rt.isPrintWide app.State ++ "]\n" ∧
    (matchLine rt app = "[Name:\"" ++ app.Name ++ "\", State:\"" ++ app.State ++ "\"]\n" ↔
      (∀ c ∈ app.Name.data, plainChar rt.isPrintWide c = true) ∧
      (∀ c ∈ app.State.data, plainChar rt.isPrintWide c = true)) := by
  refine ⟨rfl, ?_, ?_⟩
  · intro h
    have h1 := congrArg (fun s : String => s.data.length) h
    simp only [matchLine, Quote, String.data_append, List.length_append, List.length_cons] at h1
    have hn := flatMap_escape_length rt.isPrintWide app.Name.data
    have ht := flatMap_escape_length rt.isPrintWide app.State.data
    have e1 : "[Name:".data.length = 6 := rfl
    have e2 : ", State:".data.length = 8 := rfl
    have e3 : "]\n".data.length = 2 := rfl
    have e4 : "[Name:\"".data.length = 7 := rfl
    have e5 : "\", State:\"".data.length = 10 := rfl
    have e6 : "\"]\n".data.length = 3 := rfl
    simp only [e1, e2, e3, e4, e5, e6, List.length_nil] at h1
    exact ⟨hn.2 (by omega), ht.2 (by omega)⟩
  · rintro ⟨hn, ht⟩
    apply String.ext
    simp only [matchLine, Quote, String.data_append]
    rw [flatMap_escape_plain _ _ hn, flatMap_escape_plain _ _ ht]
    simp [dquote]

/-- Witness of the amended C3 on the record of scenario 6: `api-gateway` and
`STARTED` are printed verbatim. -/
theorem matchLine_verbatim_iff_witness :
    matchLine demoRuntime ⟨"api-gateway", "g1", "STARTED"⟩ =
      "[Name:\"api-gateway\", State:\"STARTED\"]\n" :=
  (matchLine_verbatim_iff demoRuntime ⟨"api-gateway", "g1", "STARTED"⟩).2.mpr
    ⟨by decide, by decide⟩

/-! ## C4: the space lookup fails -/

/-- C4: when `GetCurrentSpace` returns the error `E`, `process` prints the
line `Unable to get current space due to ` and then the line with the text of
`E`, nothing else; the only host call is the space lookup (no raw command is
issued) and `process` returns to `Run`. -/
theorem process_space_lookup_fails (rt : GoRuntime) (cli : CliConnection)
    (searchString : String) (E : GoError) (h : cli.GetCurrentSpace = Except.error E) :
    process rt cli searchString =
      ⟨["Unable to get current space due to \n", E.Error ++ "\n"],
        [HostCall.GetCurrentSpace], Termination.returned⟩ := by
  simp only [process, h, logError, Println]
  rfl

/-- Witness of C4 on a host without a targeted space. -/
theorem process_space_lookup_fails_witness :
    process demoRuntime hostWithoutSpace "api" =
      ⟨["Unable to get current space due to \n", "No space targeted\n"],
        [HostCall.GetCurrentSpace], Termination.returned⟩ :=
  process_space_lookup_fails demoRuntime hostWithoutSpace "api" ⟨"No space targeted"⟩ rfl

/-! ## C5: the response does not decode -/

/-- C5, as stated, fails: on the response `x`, which is not JSON, the
diagnostics are four lines, not two.  `parseCFApps` reports the error under
`Unable to parse response ` before `process` reports it again under
`Json parse error for result x`. -/
theorem process_decode_fails_counterexample :
    (process demoRuntime (hostAnswering ["x"]) "api").stdout =
        ["Unable to parse response \n", "json: syntax error\n",
          "Json parse error for result x\n", "json: syntax error\n"] ∧
    (process demoRuntime (hostAnswering ["x"]) "api").stdout ≠
        ["Json parse error for result x\n", "json: syntax error\n"] := by
  constructor
  · rfl
  · decide

/-- C5, amended: when decoding the joined response `r` fails with the error
`e`, `process` prints four lines, `Unable to parse response `, the text of `e`,
`Json parse error for result ` immediately followed by `r`, and the text of
`e` again; it prints no match line and returns normally. -/
theorem process_decode_fails (rt : GoRuntime) (cli : CliConnection)
    (searchString : String) (space : Space) (lines : List String) (e : JsonError)
    (hs : cli.GetCurrentSpace = Except.ok space)
    (hc : cli.CliCommandWithoutTerminalOutput ["curl", appsUrl space] = Except.ok lines)
    (hd : Unmarshal (Join lines) = Except.error e) :
    (process rt cli searchString).stdout =
        ["Unable to parse response \n", (rt.jsonError (Join lines) e).Error ++ "\n",
          "Json parse error for result " ++ Join lines ++ "\n",
          (rt.jsonError (Join lines) e).Error ++ "\n"] ∧
    (process rt cli searchString).term = Termination.returned := by
  simp only [process, hs, hc, parseCFApps, hd, logError, Println]
  trivial

/-- Witness of the amended C5 on a response cut short. -/
theorem process_decode_fails_witness :
    (process demoRuntime (hostAnswering ["\x7b\"resources\":["]) "api").stdout =
        ["Unable to parse response \n", "json: syntax error\n",
          "Json parse error for result \x7b\"resources\":[\n", "json: syntax error\n"] ∧
    (process demoRuntime (hostAnswering ["\x7b\"resources\":["]) "api").term =
        Termination.returned :=
  process_decode_fails demoRuntime (hostAnswering ["\x7b\"resources\":["]) "api"
    ⟨"space-123"⟩ ["\x7b\"resources\":["] JsonError.syntaxError rfl rfl rfl

/-! ## C6: which responses decode -/

theorem succeeded_decodeString (cur : String) (v : JValue) :
    succeeded (decodeString cur v) = fitsString v := by
  cases v <;> rfl

theorem succeeded_map {α β : Type} (f : α → β) (x : Except JsonError α) :
    succeeded (x.map f) = succeeded x := by
  cases x <;> rfl

theorem succeeded_decodeAppMember (app : CFApp) (key : String) (v : JValue) :
    succeeded (decodeAppMember app key v) = (!isAppField key || fitsString v) := by
  unfold decodeAppMember isAppField
  cases h1 : keyMatches "Name" key
  · cases h2 : keyMatches "Guid" key
    · cases h3 : keyMatches "State" key
      · simp [succeeded]
      · simp [succeeded_map, succeeded_decodeString]
    · simp [succeeded_map, succeeded_decodeString]
  · simp [succeeded_map, succeeded_decodeString]

theorem succeeded_decodeAppMembers (app : CFApp) (members : List (String × JValue)) :
    succeeded (decodeAppMembers app members) =
      members.all fun m => !isAppField m.1 || fitsString m.2 := by
  induction members generalizing app with
  | nil => rfl
  | cons m rest ih =>
    obtain ⟨key, v⟩ := m
    have h := succeeded_decodeAppMember app key v
    simp only [decodeAppMembers, List.all_cons]
    cases hd : decodeAppMember app key v with
    | error e =>
      rw [hd] at h
      simp only [succeeded] at h
      simp [succeeded, ← h]
    | ok app1 =>
      rw [hd] at h
      simp only [succeeded] at h
      simp [ih, ← h]

theorem succeeded_decodeElem (cur : Option CFApp) (v : JValue) :
    succeeded (decodeElem cur v) = fitsApp v := by
  cases v with
  | object members =>
    simp only [decodeElem, fitsApp, succeeded_map, succeeded_decodeAppMembers]
  | _ => rfl

theorem succeeded_decodeElems (cells : List (Option CFApp)) (elems : List JValue) :
    succeeded (decodeElems cells elems) = elems.all fitsApp := by
  induction elems generalizing cells with
  | nil => rfl
  | cons v rest ih =>
    have h := succeeded_decodeElem (cells.headD none) v
    have ih1 := ih cells.tail
    simp only [decodeElems, List.all_cons]
    cases hd : decodeElem (cells.headD none) v with
    | error e =>
      rw [hd] at h
      simp only [succeeded] at h
      simp [succeeded, ← h]
    | ok a =>
      rw [hd] at h
      simp only [succeeded] at h
      cases hr : decodeElems cells.tail rest with
      | error e =>
        rw [hr] at ih1
        simp only [succeeded] at ih1
        simp [succeeded, ← ih1]
      | ok others =>
        rw [hr] at ih1
        simp only [succeeded] at ih1
        simp [succeeded, ← ih1, ← h]

theorem succeeded_decodeSlice (cur : SliceState) (v : JValue) :
    succeeded (decodeSlice cur v) = fitsSlice v := by
  cases v with
  | array elems =>
    cases elems with
    | nil => rfl
    | cons v rest =>
      simp only [decodeSlice, fitsSlice, succeeded_map, succeeded_decodeElems]
  | _ => rfl

theorem succeeded_decodeTopMembers (cur : SliceState) (members : List (String × JValue)) :
    succeeded (decodeTopMembers cur members) =
      members.all fun m => !keyMatches "resources" m.1 || fitsSlice m.2 := by
  induction members generalizing cur with
  | nil => rfl
  | cons m rest ih =>
    obtain ⟨key, v⟩ := m
    simp only [decodeTopMembers, List.all_cons]
    cases hk : keyMatches "resources" key with
    | false => simp [ih]
    | true =>
      have h := succeeded_decodeSlice cur v
      simp only [if_true]
      cases hd : decodeSlice cur v with
      | error e =>
        rw [hd] at h
        simp only [succeeded] at h
        simp [succeeded, ← h]
      | ok apps =>
        rw [hd] at h
        simp only [succeeded] at h
        simp [ih, ← h]

theorem succeeded_decodeCFApps (v : JValue) : succeeded (decodeCFApps v) = fitsCFApps v := by
  cases v with
  | object members =>
    simp only [decodeCFApps, fitsCFApps, succeeded_map, succeeded_decodeTopMembers]
  | _ => rfl

theorem parseCFApps_error_iff (rt : GoRuntime) (data : String) :
    (parseCFApps rt data).2.2 = none ↔ succeeded (Unmarshal data) = true := by
  unfold parseCFApps
  cases Unmarshal data <;> simp [succeeded]

theorem decodeAppMembers_filter (app : CFApp) (members : List (String × JValue)) :
    decodeAppMembers app members =
      decodeAppMembers app (members.filter fun m => isAppField m.1) := by
  induction members generalizing app with
  | nil => rfl
  | cons m rest ih =>
    obtain ⟨key, v⟩ := m
    cases hk : isAppField key with
    | true =>
      rw [List.filter_cons_of_pos (by simpa using hk)]
      simp only [decodeAppMembers]
      cases decodeAppMember app key v with
      | error e => rfl
      | ok app1 => exact ih app1
    | false =>
      rw [List.filter_cons_of_neg (by simp [hk])]
      have hm : decodeAppMember app key v = Except.ok app := by
        simp only [isAppField, Bool.or_eq_false_iff] at hk
        simp [decodeAppMember, hk.1.1, hk.1.2, hk.2]
      simp only [decodeAppMembers, hm]
      exact ih app

theorem decodeTopMembers_filter (cur : SliceState) (members : List (String × JValue)) :
    decodeTopMembers cur members =
      decodeTopMembers cur (members.filter fun m => keyMatches "resources" m.1) := by
  induction members generalizing cur with
  | nil => rfl
  | cons m rest ih =>
    obtain ⟨key, v⟩ := m
    cases hk : keyMatches "resources" key with
    | true =>
      rw [List.filter_cons_of_pos (by simpa using hk)]
      simp only [decodeTopMembers, hk, if_true]
      cases decodeSlice cur v with
      | error e => rfl
      | ok next => exact ih next
    | false =>
      rw [List.filter_cons_of_neg (by simp [hk])]
      simp only [decodeTopMembers, hk]
      exact ih cur

theorem decodeAppMember_keeps (app app1 : CFApp) (key : String) (v : JValue)
    (h : decodeAppMember app key v = Except.ok app1) :
    (keyMatches "Name" key = false → app1.Name = app.Name) ∧
    (keyMatches "Guid" key = false → app1.Guid = app.Guid) ∧
    (keyMatches "State" key = false → app1.State = app.State) := by
  unfold decodeAppMember at h
  cases h1 : keyMatches "Name" key
  · cases h2 : keyMatches "Guid" key
    · cases h3 : keyMatches "State" key
      · simp only [h1, h2, h3, Bool.false_eq_true, if_false, Except.ok.injEq] at h
        subst h
        simp
      · simp only [h1, h2, h3, Bool.false_eq_true, if_false, if_true] at h
        cases hs : decodeString app.State v with
        | error e => simp [hs, Except.map] at h
        | ok s =>
          simp only [hs, Except.map, Except.ok.injEq] at h
          subst h
          simp
    · simp only [h1, h2, Bool.false_eq_true, if_false, if_true] at h
      cases hs : decodeString app.Guid v with
      | error e => simp [hs, Except.map] at h
      | ok s =>
        simp only [hs, Except.map, Except.ok.injEq] at h
        subst h
        simp
  · simp only [h1, if_true] at h
    cases hs : decodeString app.Name v with
    | error e => simp [hs, Except.map] at h
    | ok s =>
      simp only [hs, Except.map, Except.ok.injEq] at h
      subst h
      simp

theorem decodeAppMembers_keeps (app app1 : CFApp) (members : List (String × JValue))
    (h : decodeAppMembers app members = Except.ok app1) :
    ((∀ m ∈ members, keyMatches "Name" m.1 = false) → app1.Name = app.Name) ∧
    ((∀ m ∈ members, keyMatches "Guid" m.1 = false) → app1.Guid = app.Guid) ∧
    ((∀ m ∈ members, keyMatches "State" m.1 = false) → app1.State = app.State) := by
  induction members generalizing app with
  | nil =>
    simp only [decodeAppMembers, Except.ok.injEq] at h
    subst h
    simp
  | cons m rest ih =>
    obtain ⟨key, v⟩ := m
    simp only [decodeAppMembers] at h
    cases hd : decodeAppMember app key v with
    | error e => simp [hd] at h
    | ok app2 =>
      simp only [hd] at h
      have h1 := decodeAppMember_keeps app app2 key v hd
      have h2 := ih app2 h
      refine ⟨fun hm => ?_, fun hm => ?_, fun hm => ?_⟩
      · rw [h2.1 (fun m hmem => hm m (List.mem_cons_of_mem _ hmem)),
          h1.1 (hm (key, v) (List.mem_cons_self _ _))]
      · rw [h2.2.1 (fun m hmem => hm m (List.mem_cons_of_mem _ hmem)),
          h1.2.1 (hm (key, v) (List.mem_cons_self _ _))]
      · rw [h2.2.2 (fun m hmem => hm m (List.mem_cons_of_mem _ hmem)),
          h1.2.2 (hm (key, v) (List.mem_cons_self _ _))]

/-- C6, as stated, fails: the texts `[]`, `{"resources":5}` and
`{"resources":[{"name":5}]}` pass the syntax check of the decoder, and
`parseCFApps` returns an error for each, because a JSON array does not decode
into the struct `CFApps`, a number not into a slice, and a number not into a
`string`. -/
theorem parseCFApps_valid_json_counterexample :
    ((parseJSON "[]").isSome = true ∧
      Unmarshal "[]" = Except.error (JsonError.unmarshalTypeError "array" "main.CFApps") ∧
      (parseCFApps demoRuntime "[]").2.2 ≠ none) ∧
    ((parseJSON "\x7b\"resources\":5\x7d").isSome = true ∧
      Unmarshal "\x7b\"resources\":5\x7d" =
        Except.error (JsonError.unmarshalTypeError "number" "[]*main.CFApp") ∧
      (parseCFApps demoRuntime "\x7b\"resources\":5\x7d").2.2 ≠ none) ∧
    ((parseJSON "\x7b\"resources\":[\x7b\"name\":5\x7d]\x7d").isSome = true ∧
      Unmarshal "\x7b\"resources\":[\x7b\"name\":5\x7d]\x7d" =
        Except.error (JsonError.unmarshalTypeError "number" "string") ∧
      (parseCFApps demoRuntime "\x7b\"resources\":[\x7b\"name\":5\x7d]\x7d").2.2 ≠ none) := by
  refine ⟨⟨rfl, rfl, ?_⟩, ⟨rfl, rfl, ?_⟩, ⟨rfl, rfl, ?_⟩⟩ <;> decide

theorem decodeElems_nil_length (elems : List JValue) (out : List (Option CFApp))
    (h : decodeElems [] elems = Except.ok out) : out.length = elems.length := by
  induction elems generalizing out with
  | nil =>
    simp only [decodeElems, Except.ok.injEq] at h
    subst h
    rfl
  | cons v rest ih =>
    simp only [decodeElems, List.headD_nil, List.tail_nil] at h
    cases hd : decodeElem none v with
    | error e => simp [hd] at h
    | ok a =>
      simp only [hd] at h
      cases hr : decodeElems [] rest with
      | error e => simp [hr] at h
      | ok others =>
        simp only [hr, Except.ok.injEq] at h
        subst h
        simp [ih others hr]

theorem decodeCFApps_single_resources (members : List (String × JValue)) (key : String)
    (elems : List JValue)
    (h : (members.filter fun m => keyMatches "resources" m.1) = [(key, JValue.array elems)]) :
    decodeCFApps (JValue.object members) = (decodeElems [] elems).map CFApps.mk := by
  have hk : keyMatches "resources" key = true := by
    have hm : (key, JValue.array elems) ∈
        members.filter fun m => keyMatches "resources" m.1 := by
      rw [h]
      exact List.mem_singleton_self _
    simpa using (List.mem_filter.mp hm).2
  simp only [decodeCFApps]
  rw [decodeTopMembers_filter, h]
  simp only [decodeTopMembers, hk, if_true]
  cases elems with
  | nil => rfl
  | cons v rest =>
    simp only [decodeSlice]
    cases hd : decodeElems [] (v :: rest) with
    | error e => rfl
    | ok out =>
      have hl := decodeElems_nil_length (v :: rest) out hd
      simp only [Except.map, SliceState.value, ← hl, List.take_length]

theorem decodeElems_nil_forall₂ (elems : List JValue) (out : List (Option CFApp))
    (h : decodeElems [] elems = Except.ok out) :
    List.Forall₂ (fun v a => decodeElem none v = Except.ok a) elems out := by
  induction elems generalizing out with
  | nil =>
    simp only [decodeElems, Except.ok.injEq] at h
    subst h
    exact List.Forall₂.nil
  | cons v rest ih =>
    simp only [decodeElems, List.headD_nil, List.tail_nil] at h
    cases hd : decodeElem none v with
    | error e => simp [hd] at h
    | ok a =>
      simp only [hd] at h
      cases hr : decodeElems [] rest with
      | error e => simp [hr] at h
      | ok others =>
        simp only [hr, Except.ok.injEq] at h
        subst h
        exact List.Forall₂.cons hd (ih others hr)

theorem decodeElem_keeps (cur : Option CFApp) (members : List (String × JValue))
    (app : CFApp) (h : decodeElem cur (JValue.object members) = Except.ok (some app)) :
    ((∀ m ∈ members, keyMatches "Name" m.1 = false) →
      app.Name = (cur.getD ⟨"", "", ""⟩).Name) ∧
    ((∀ m ∈ members, keyMatches "Guid" m.1 = false) →
      app.Guid = (cur.getD ⟨"", "", ""⟩).Guid) ∧
    ((∀ m ∈ members, keyMatches "State" m.1 = false) →
      app.State = (cur.getD ⟨"", "", ""⟩).State) := by
  simp only [decodeElem] at h
  cases hd : decodeAppMembers (cur.getD ⟨"", "", ""⟩) members with
  | error e => simp [hd, Except.map] at h
  | ok app1 =>
    simp only [hd, Except.map, Except.ok.injEq, Option.some.injEq] at h
    subst h
    exact decodeAppMembers_keeps _ app1 members hd

/-- The decoder on a text that gives `resources` twice: the second array is
decoded into the record the first one left in the slice, so the record keeps
the `Name` and `State` of the first and takes the `Guid` of the second. -/
theorem Unmarshal_repeated_resources :
    Unmarshal
        "\x7b\"resources\":[\x7b\"name\":\"a\",\"state\":\"S\"\x7d],\"resources\":[\x7b\"guid\":\"g\"\x7d]\x7d" =
      Except.ok ⟨[some ⟨"a", "g", "S"⟩]⟩ := by
  rfl

/-- C6, amended: `parseCFApps` returns no error exactly when the text passes
the syntax check of the decoder and every value has a JSON type its Go target
accepts (the top level is an object or `null`; a value under `resources` is an
array or `null`; an element of it is an object or `null`; a value under
`name`, `guid` or `state` is a string or `null`).  Members whose key selects
no field are ignored, at the top level and inside an element.  A field that
no key of an element selects keeps the value the element held before: the
empty string when the element is new, and the value an earlier array under
`resources` gave it otherwise.  When exactly one member of the top-level
object selects `resources` and holds an array, every element is new: the
collection is, element by element, what the elements of the array decode to
from nil. -/
theorem parseCFApps_error_iff_shape (rt : GoRuntime) (data : String) :
    ((parseCFApps rt data).2.2 = none ↔
      ∃ v, parseJSON data = some v ∧ fitsCFApps v = true) ∧
    (∀ (cur : SliceState) (members : List (String × JValue)),
      decodeTopMembers cur members =
        decodeTopMembers cur (members.filter fun m => keyMatches "resources" m.1)) ∧
    (∀ (app : CFApp) (members : List (String × JValue)),
      decodeAppMembers app members =
        decodeAppMembers app (members.filter fun m => isAppField m.1)) ∧
    (∀ (members : List (String × JValue)) (app : CFApp),
      decodeElem none (JValue.object members) = Except.ok (some app) →
        ((∀ m ∈ members, keyMatches "Name" m.1 = false) → app.Name = "") ∧
        ((∀ m ∈ members, keyMatches "Guid" m.1 = false) → app.Guid = "") ∧
        ((∀ m ∈ members, keyMatches "State" m.1 = false) → app.State = "")) ∧
    (∀ (held : CFApp) (members : List (String × JValue)) (app : CFApp),
      decodeElem (some held) (JValue.object members) = Except.ok (some app) →
        ((∀ m ∈ members, keyMatches "Name" m.1 = false) → app.Name = held.Name) ∧
        ((∀ m ∈ members, keyMatches "Guid" m.1 = false) → app.Guid = held.Guid) ∧
        ((∀ m ∈ members, keyMatches "State" m.1 = false) → app.State = held.State)) ∧
    (∀ (members : List (String × JValue)) (key : String) (elems : List JValue)
        (out : CFApps),
      (members.filter fun m => keyMatches "resources" m.1) = [(key, JValue.array elems)] →
      decodeCFApps (JValue.object members) = Except.ok out →
        List.Forall₂ (fun v a => decodeElem none v = Except.ok a) elems out.CFApps) := by
  refine ⟨?_, decodeTopMembers_filter, decodeAppMembers_filter, ?_, ?_, ?_⟩
  rotate_left 3
  · intro members key elems out hm hout
    rw [decodeCFApps_single_resources members key elems hm] at hout
    cases hd : decodeElems [] elems with
    | error e => simp [hd, Except.map] at hout
    | ok cells =>
      simp only [hd, Except.map, Except.ok.injEq] at hout
      subst hout
      exact decodeElems_nil_forall₂ elems cells hd
  · rw [parseCFApps_error_iff]
    unfold Unmarshal
    cases hp : parseJSON data with
    | none => simp [succeeded]
    | some v => simp [succeeded_decodeCFApps]
  · intro members app h
    exact decodeElem_keeps none members app h
  · intro held members app h
    exact decodeElem_keeps (some held) members app h

/-- Witness of the amended C6: a response with a member beside `resources`,
and an element with an unknown member and without `guid` and `state`, decodes
without error. -/
theorem parseCFApps_error_iff_shape_witness :
    (parseCFApps demoRuntime
      "\x7b\"pagination\":\x7b\x7d,\"resources\":[\x7b\"name\":\"a\",\"extra\":1\x7d]\x7d").2.2 =
        none :=
  (parseCFApps_error_iff_shape demoRuntime
    "\x7b\"pagination\":\x7b\x7d,\"resources\":[\x7b\"name\":\"a\",\"extra\":1\x7d]\x7d").1.mpr
    ⟨JValue.object [("pagination", JValue.object []),
        ("resources", JValue.array
          [JValue.object [("name", JValue.string "a"), ("extra", JValue.number)]])],
      rfl, rfl⟩

/-! ## C7: the decoding round trip -/

theorem hexDigits_getu4 : ∀ n, n < 32 →
    hexDigits 4 n = ['0', '0', hexDigit (n / 16), hexDigit n] ∧
    getu4 '0' '0' (hexDigit (n / 16)) (hexDigit n) = some n := by
  decide

theorem scanString_step_quote (fuel : Nat) (tl : List Char) :
    scanString (fuel + 1) (dquote :: tl) = some ([], tl) := by
  simp only [scanString, if_true]

theorem scanString_step_escape (fuel : Nat) (e x : Char) (tl : List Char)
    (hu : e ≠ 'u') (hx : simpleEscape e = some x) :
    scanString (fuel + 1) (backslash :: e :: tl) =
      (scanString fuel tl).map fun p => (x :: p.1, p.2) := by
  have h1 : backslash ≠ dquote := by decide
  simp only [scanString, if_neg h1, if_true, if_neg hu, hx]

theorem scanString_step_plain (fuel : Nat) (c : Char) (tl : List Char)
    (h1 : c ≠ dquote) (h2 : c ≠ backslash) (h3 : ¬ c.toNat < 0x20) :
    scanString (fuel + 1) (c :: tl) =
      (scanString fuel tl).map fun p => (c :: p.1, p.2) := by
  simp only [scanString, if_neg h1, if_neg h2, if_neg h3]

theorem scanString_step_control (fuel : Nat) (c : Char) (tl : List Char)
    (h : c.toNat < 0x20) :
    scanString (fuel + 1) (backslash :: 'u' :: (hexDigits 4 c.toNat ++ tl)) =
      (scanString fuel tl).map fun p => (c :: p.1, p.2) := by
  have h1 : backslash ≠ dquote := by decide
  obtain ⟨hd, hg⟩ := hexDigits_getu4 c.toNat h
  have hs : isSurrogate c.toNat = false := by
    simp only [isSurrogate, Bool.and_eq_false_imp, decide_eq_true_eq, decide_eq_false_iff_not]
    omega
  rw [hd]
  simp only [scanString, if_neg h1, if_true, List.cons_append, List.nil_append, hg, hs,
    Bool.false_eq_true, if_false, Char.ofNat_toNat]

theorem scanString_encode (s rest : List Char) (fuel : Nat) (h : s.length + 1 ≤ fuel) :
    scanString fuel (s.flatMap encodeChar ++ dquote :: rest) = some (s, rest) := by
  induction s generalizing fuel with
  | nil =>
    obtain ⟨f, rfl⟩ : ∃ f, fuel = f + 1 := ⟨fuel - 1, by omega⟩
    exact scanString_step_quote f rest
  | cons c s ih =>
    obtain ⟨f, rfl⟩ : ∃ f, fuel = f + 1 := ⟨fuel - 1, by omega⟩
    have hf : s.length + 1 ≤ f := by
      simp only [List.length_cons] at h
      omega
    have ih1 := ih f hf
    simp only [List.flatMap_cons, List.append_assoc]
    unfold encodeChar
    by_cases h1 : c = dquote
    · rw [if_pos h1]
      subst h1
      have hx : simpleEscape dquote = some dquote := by decide
      have := scanString_step_escape f dquote dquote
        (s.flatMap encodeChar ++ dquote :: rest) (by decide) hx
      simpa [ih1] using this
    · rw [if_neg h1]
      by_cases h2 : c = backslash
      · rw [if_pos h2]
        subst h2
        have hx : simpleEscape backslash = some backslash := by decide
        have := scanString_step_escape f backslash backslash
          (s.flatMap encodeChar ++ dquote :: rest) (by decide) hx
        simpa [ih1] using this
      · rw [if_neg h2]
        by_cases h3 : c.toNat < 0x20
        · rw [if_pos h3]
          have := scanString_step_control f c (s.flatMap encodeChar ++ dquote :: rest) h3
          simpa [ih1] using this
        · rw [if_neg h3]
          have := scanString_step_plain f c (s.flatMap encodeChar ++ dquote :: rest) h1 h2 h3
          simpa [ih1] using this

theorem length_le_flatMap_encodeChar (s : List Char) :
    s.length ≤ (s.flatMap encodeChar).length := by
  induction s with
  | nil => simp
  | cons c s ih =>
    have hc : 1 ≤ (encodeChar c).length := by
      unfold encodeChar
      split_ifs <;> simp
    simp only [List.flatMap_cons, List.length_append, List.length_cons]
    omega

theorem parseValue_string (fuel depth : Nat) (s : String) (rest : List Char) :
    parseValue (fuel + 1) depth (encodeString s ++ rest) = some (JValue.string s, rest) := by
  have h1 : dquote ≠ '{' := by decide
  have h2 : dquote ≠ '[' := by decide
  have hs := scanString_encode s.data rest
    ((s.data.flatMap encodeChar ++ dquote :: rest).length + 1)
    (by
      have := length_le_flatMap_encodeChar s.data
      simp only [List.length_append, List.length_cons]
      omega)
  simp only [encodeString, List.cons_append, List.append_assoc, List.singleton_append,
    List.nil_append, parseValue, if_neg h1, if_neg h2, if_true, hs, Option.map_some']

theorem skipSpace_of_not_space (c : Char) (tl : List Char) (h : isSpace c = false) :
    skipSpace (c :: tl) = c :: tl := by
  simp [skipSpace, h]

theorem skipSpace_encodeString (s : String) (tl : List Char) :
    skipSpace (encodeString s ++ tl) = encodeString s ++ tl :=
  skipSpace_of_not_space dquote _ (by decide)

theorem scanString_key (k : String) (tl : List Char) :
    scanString ((k.data.flatMap encodeChar ++ dquote :: tl).length + 1)
      (k.data.flatMap encodeChar ++ dquote :: tl) = some (k.data, tl) :=
  scanString_encode k.data tl _ (by
    have := length_le_flatMap_encodeChar k.data
    simp only [List.length_append, List.length_cons]
    omega)

theorem parseMembers_step_comma (f depth : Nat) (k v : String) (rest : List Char) :
    parseMembers (f + 2) depth (encodeString k ++ ':' :: (encodeString v ++ ',' :: rest)) =
      (parseMembers (f + 1) depth (skipSpace rest)).map
        fun p => ((k, JValue.string v) :: p.1, p.2) := by
  have hv := parseValue_string f depth v (',' :: rest)
  have hk := scanString_key k (':' :: (encodeString v ++ ',' :: rest))
  have hc : skipSpace (':' :: (encodeString v ++ ',' :: rest)) =
      ':' :: (encodeString v ++ ',' :: rest) := skipSpace_of_not_space _ _ (by decide)
  have hm : skipSpace (',' :: rest) = ',' :: rest := skipSpace_of_not_space _ _ (by decide)
  have hq := skipSpace_encodeString v (',' :: rest)
  rw [show encodeString k ++ ':' :: (encodeString v ++ ',' :: rest) =
    dquote :: (k.data.flatMap encodeChar ++ dquote :: ':' :: (encodeString v ++ ',' :: rest))
    by simp [encodeString]]
  rw [parseMembers]
  simp only [if_true, hk, hc, hq, hv, hm]

theorem parseMembers_step_close (f depth : Nat) (k v : String) (rest : List Char) :
    parseMembers (f + 2) depth (encodeString k ++ ':' :: (encodeString v ++ '}' :: rest)) =
      some ([(k, JValue.string v)], rest) := by
  have hv := parseValue_string f depth v ('}' :: rest)
  have hk := scanString_key k (':' :: (encodeString v ++ '}' :: rest))
  have hc : skipSpace (':' :: (encodeString v ++ '}' :: rest)) =
      ':' :: (encodeString v ++ '}' :: rest) := skipSpace_of_not_space _ _ (by decide)
  have hm : skipSpace ('}' :: rest) = '}' :: rest := skipSpace_of_not_space _ _ (by decide)
  have hq := skipSpace_encodeString v ('}' :: rest)
  have hne : ('}' : Char) ≠ ',' := by decide
  rw [show encodeString k ++ ':' :: (encodeString v ++ '}' :: rest) =
    dquote :: (k.data.flatMap encodeChar ++ dquote :: ':' :: (encodeString v ++ '}' :: rest))
    by simp [encodeString]]
  rw [parseMembers]
  simp only [if_true, hk, hc, hq, hv, hm, if_neg hne]

theorem encodeString_append (s : String) (tl : List Char) :
    encodeString s ++ tl = dquote :: (s.data.flatMap encodeChar ++ dquote :: tl) := by
  simp [encodeString]

theorem parseValue_object_open (f depth : Nat) (tl : List Char)
    (hd : depth + 1 ≤ maxNestingDepth) :
    parseValue (f + 1) depth ('{' :: dquote :: tl) =
      (parseMembers f (depth + 1) (dquote :: tl)).map fun p => (JValue.object p.1, p.2) := by
  have h1 : ¬ depth + 1 > maxNestingDepth := by omega
  have hne : dquote ≠ '}' := by decide
  have hs : skipSpace (dquote :: tl) = dquote :: tl := skipSpace_of_not_space _ _ (by decide)
  rw [parseValue]
  simp only [if_true, if_neg h1, hs, if_neg hne]

theorem parseValue_encodeApp (f depth : Nat) (a : CFApp) (rest : List Char)
    (hd : depth + 1 ≤ maxNestingDepth) :
    parseValue (f + 5) depth (encodeApp a ++ rest) = some (appValue a, rest) := by
  have e : encodeApp a ++ rest =
      '{' :: (encodeString "name" ++ ':' :: (encodeString a.Name ++ ',' ::
        (encodeString "guid" ++ ':' :: (encodeString a.Guid ++ ',' ::
          (encodeString "state" ++ ':' :: (encodeString a.State ++ '}' :: rest)))))) := by
    simp [encodeApp]
  rw [e, encodeString_append "name", parseValue_object_open (f + 4) depth _ hd,
    ← encodeString_append "name",
    parseMembers_step_comma (f + 2), skipSpace_encodeString,
    parseMembers_step_comma (f + 1), skipSpace_encodeString,
    parseMembers_step_close f]
  rfl

theorem encodeApps_cons (a : CFApp) (L : List CFApp) (rest : List Char) :
    encodeApps (a :: L) ++ ']' :: rest =
      encodeApp a ++ (if L = [] then ']' :: rest else ',' :: (encodeApps L ++ ']' :: rest)) := by
  cases L with
  | nil => simp [encodeApps]
  | cons b L => simp [encodeApps]

theorem encodeApp_head (a : CFApp) (tl : List Char) :
    ∃ tl1, encodeApp a ++ tl = '{' :: dquote :: tl1 :=
  ⟨_, by simp [encodeApp, encodeString]; rfl⟩

theorem parseElems_encodeApps (depth : Nat) (hd : depth + 1 ≤ maxNestingDepth)
    (a : CFApp) (L : List CFApp) (rest : List Char) (f : Nat) (hf : L.length + 6 ≤ f) :
    parseElems f depth (encodeApps (a :: L) ++ ']' :: rest) =
      some ((a :: L).map appValue, rest) := by
  induction L generalizing a f with
  | nil =>
    obtain ⟨g, rfl⟩ : ∃ g, f = g + 6 := ⟨f - 6, by simp at hf; omega⟩
    have hs : skipSpace (']' :: rest) = ']' :: rest := skipSpace_of_not_space _ _ (by decide)
    have hne : (']' : Char) ≠ ',' := by decide
    rw [encodeApps_cons, if_pos rfl, parseElems, parseValue_encodeApp g depth a _ hd]
    simp only [hs, if_neg hne, if_true, List.map_cons, List.map_nil]
  | cons b L ih =>
    obtain ⟨g, rfl⟩ : ∃ g, f = g + 6 := ⟨f - 6, by simp at hf; omega⟩
    have hg : L.length + 6 ≤ g + 5 := by
      simp only [List.length_cons] at hf
      omega
    have hs : ∀ tl, skipSpace (',' :: tl) = ',' :: tl :=
      fun tl => skipSpace_of_not_space _ _ (by decide)
    have hb : skipSpace (encodeApps (b :: L) ++ ']' :: rest) =
        encodeApps (b :: L) ++ ']' :: rest := by
      rw [encodeApps_cons]
      obtain ⟨tl1, h1⟩ := encodeApp_head b
        (if L = [] then ']' :: rest else ',' :: (encodeApps L ++ ']' :: rest))
      rw [h1]
      exact skipSpace_of_not_space _ _ (by decide)
    rw [encodeApps_cons, if_neg (by simp), parseElems, parseValue_encodeApp g depth a _ hd]
    simp only [hs, if_true, hb, ih b (g + 5) hg, Option.map_some', List.map_cons]

theorem length_le_encodeApps (L : List CFApp) : L.length ≤ (encodeApps L).length := by
  induction L with
  | nil => simp
  | cons a L ih =>
    cases L with
    | nil => simp [encodeApps, encodeApp]
    | cons b L =>
      simp only [encodeApps, List.length_append, List.length_cons] at ih ⊢
      omega

theorem parseValue_array (f : Nat) (L : List CFApp) (rest : List Char)
    (hf : L.length + 6 ≤ f) :
    parseValue (f + 1) 1 ('[' :: (encodeApps L ++ ']' :: rest)) =
      some (JValue.array (L.map appValue), rest) := by
  have h1 : ('[' : Char) ≠ '{' := by decide
  have h2 : ¬ 1 + 1 > maxNestingDepth := by decide
  cases L with
  | nil =>
    have hs : skipSpace (']' :: rest) = ']' :: rest := skipSpace_of_not_space _ _ (by decide)
    rw [parseValue]
    simp only [if_neg h1, if_true, if_neg h2, encodeApps, List.nil_append, hs, List.map_nil]
  | cons a L =>
    have hp := parseElems_encodeApps 2 (by decide) a L rest f (by
      simp only [List.length_cons] at hf
      omega)
    obtain ⟨tl1, ht⟩ : ∃ tl1, encodeApps (a :: L) ++ ']' :: rest = '{' :: tl1 := by
      rw [encodeApps_cons]
      obtain ⟨tl1, h⟩ := encodeApp_head a
        (if L = [] then ']' :: rest else ',' :: (encodeApps L ++ ']' :: rest))
      exact ⟨_, h⟩
    have hne : ('{' : Char) ≠ ']' := by decide
    have hs : skipSpace ('{' :: tl1) = '{' :: tl1 := skipSpace_of_not_space _ _ (by decide)
    rw [parseValue]
    simp only [if_neg h1, if_true, if_neg h2]
    rw [ht] at hp ⊢
    simp only [hs, if_neg hne, hp, Option.map_some']

theorem parseJSON_encodeCFApps (L : List CFApp) :
    parseJSON (encodeCFApps L) =
      some (JValue.object [("resources", JValue.array (L.map appValue))]) := by
  have hlen := length_le_encodeApps L
  have e : (encodeCFApps L).data =
      '{' :: dquote :: ("resources".data.flatMap encodeChar ++
        dquote :: ':' :: '[' :: (encodeApps L ++ ']' :: ['}'])) := by
    simp [encodeCFApps, encodeString]
  obtain ⟨f, hf, hF⟩ : ∃ f, L.length + 6 ≤ f ∧ 2 * (encodeCFApps L).data.length + 2 = f + 3 := by
    refine ⟨2 * (encodeCFApps L).data.length - 1, ?_, ?_⟩
    · rw [e]
      simp only [List.length_cons, List.length_append]
      omega
    · rw [e]
      simp only [List.length_cons, List.length_append]
      omega
  have hs0 : skipSpace (encodeCFApps L).data = (encodeCFApps L).data := by
    rw [e]
    exact skipSpace_of_not_space _ _ (by decide)
  have hk := scanString_key "resources" (':' :: '[' :: (encodeApps L ++ ']' :: ['}']))
  have hc : ∀ tl, skipSpace (':' :: tl) = ':' :: tl :=
    fun tl => skipSpace_of_not_space _ _ (by decide)
  have hb : ∀ tl, skipSpace ('[' :: tl) = '[' :: tl :=
    fun tl => skipSpace_of_not_space _ _ (by decide)
  have hz : skipSpace ['}'] = ['}'] := skipSpace_of_not_space _ _ (by decide)
  have hne : ('}' : Char) ≠ ',' := by decide
  have ha := parseValue_array f L ['}'] hf
  unfold parseJSON
  rw [hs0, hF, e, parseValue_object_open (f + 2) 0 _ (by decide), parseMembers]
  have hnil : skipSpace [] = [] := rfl
  simp only [if_true, hk, hc, hb, Nat.zero_add, ha, hz, if_neg hne, Option.map_some', hnil]

theorem decodeElems_appValue (L : List CFApp) :
    decodeElems [] (L.map appValue) = Except.ok (L.map some) := by
  induction L with
  | nil => rfl
  | cons a L ih =>
    have h1 : decodeElem none (appValue a) = Except.ok (some a) := by
      have hn : keyMatches "Name" "name" = true := by decide
      have hg1 : keyMatches "Name" "guid" = false := by decide
      have hg2 : keyMatches "Guid" "guid" = true := by decide
      have hs1 : keyMatches "Name" "state" = false := by decide
      have hs2 : keyMatches "Guid" "state" = false := by decide
      have hs3 : keyMatches "State" "state" = true := by decide
      simp [decodeElem, appValue, decodeAppMembers, decodeAppMember, hn, hg1, hg2, hs1, hs2, hs3,
        decodeString, Except.map]
    simp only [List.map_cons, decodeElems, List.headD_nil, List.tail_nil, h1, ih]

theorem decodeCFApps_appValue (L : List CFApp) :
    decodeCFApps (JValue.object [("resources", JValue.array (L.map appValue))]) =
      Except.ok ⟨L.map some⟩ := by
  rw [decodeCFApps_single_resources _ "resources" (L.map appValue) (by
    have hk : keyMatches "resources" "resources" = true := by decide
    simp [List.filter, hk]), decodeElems_appValue]
  rfl

theorem Unmarshal_encodeCFApps (L : List CFApp) :
    Unmarshal (encodeCFApps L) = Except.ok ⟨L.map some⟩ := by
  simp only [Unmarshal, parseJSON_encodeCFApps, decodeCFApps_appValue]

/-- C7: for every list `L` of records, the text `{"resources":[...]}` that
holds one object `{"name":...,"guid":...,"state":...}` per record of `L`, in
order, is decoded by `parseCFApps` without error and without any diagnostic
into a collection of the length of `L` whose `i`-th element is a record with
the `Name`, `Guid` and `State` of the `i`-th element of `L`.  The same holds
for any other text of that JSON value, whatever its white space and escapes. -/
theorem parseCFApps_encode_roundtrip (rt : GoRuntime) (L : List CFApp) :
    parseCFApps rt (encodeCFApps L) = ([], ⟨L.map some⟩, none) ∧
    (parseCFApps rt (encodeCFApps L)).2.1.CFApps.length = L.length ∧
    (∀ i : Nat,
      (parseCFApps rt (encodeCFApps L)).2.1.CFApps.get? i = (L.get? i).map some) ∧
    (∀ data : String,
      parseJSON data = some (JValue.object [("resources", JValue.array (L.map appValue))]) →
      parseCFApps rt data = ([], ⟨L.map some⟩, none)) := by
  have h : parseCFApps rt (encodeCFApps L) = ([], ⟨L.map some⟩, none) := by
    simp only [parseCFApps, Unmarshal_encodeCFApps]
  refine ⟨h, ?_, ?_, ?_⟩
  · rw [h]
    simp
  · intro i
    rw [h]
    simp
  · intro data hd
    simp only [parseCFApps, Unmarshal, hd, decodeCFApps_appValue]

/-- Witness of C7 on a text of one record written with white space. -/
theorem parseCFApps_encode_roundtrip_witness :
    parseCFApps demoRuntime
        " \x7b \"resources\" : [ \x7b\"name\": \"a\", \"guid\": \"g\", \"state\": \"s\"\x7d ] \x7d\n" =
      ([], ⟨[some ⟨"a", "g", "s"⟩]⟩, none) :=
  (parseCFApps_encode_roundtrip demoRuntime [⟨"a", "g", "s"⟩]).2.2.2 _ rfl

/-! ## C8: the timing line -/

/-- C8 fails on a response with a null element: on the response
`{"resources":[{"name":"api","state":"S"},null]}` and the arguments
`find-app api`, `Run` prints the match line of the first record and then ends
by the panic of the loop on the nil element; the timing line is not printed,
so the output does not end with it. -/
theorem Run_null_element_no_timing_line :
    Run demoRuntime
        (hostAnswering ["\x7b\"resources\":[\x7b\"name\":\"api\",\"state\":\"S\"\x7d,null]\x7d"])
        ["find-app", "api"] =
      ⟨["[Name:\"api\", State:\"S\"]\n"],
        [HostCall.GetCurrentSpace,
          HostCall.CliCommandWithoutTerminalOutput
            ["curl", "/v3/apps?space_guids=space-123&per_page=5000"]],
        Termination.panicked⟩ ∧
    tookLine demoRuntime ∉
      (Run demoRuntime
        (hostAnswering ["\x7b\"resources\":[\x7b\"name\":\"api\",\"state\":\"S\"\x7d,null]\x7d"])
        ["find-app", "api"]).stdout := by
  refine ⟨rfl, by decide⟩

/-- The timing line for two arguments, whatever the host does: `Run` prints
what `process` prints and then, exactly when `process` returns, the timing
line; when `process` panics nothing follows its output. -/
theorem Run_timing_line_iff_process_returns (rt : GoRuntime) (cli : CliConnection)
    (command searchString : String) :
    (Run rt cli [command, searchString]).stdout =
        (process rt cli searchString).stdout ++
          (if (process rt cli searchString).term = Termination.returned then
            ["\nTook " ++ rt.formatSeconds rt.startMilli rt.endMilli ++ "s\n"] else []) ∧
    (Run rt cli [command, searchString]).term = (process rt cli searchString).term := by
  simp only [Run, validateInput]
  cases hp : (process rt cli searchString).term <;> simp [hp, tookLine]

/-- The timing line in the four courses in which `process` returns (the
space lookup fails; the raw command fails; the response does not decode; the
response decodes to records, none of them nil, of which any number match):
the output of `Run` is the output of `process` followed by one timing line
`\nTook <seconds>s\n`, which is the last thing printed, and `Run` returns. -/
theorem Run_ends_with_timing_line (rt : GoRuntime) (cli : CliConnection)
    (command searchString : String)
    (h : (∃ E, cli.GetCurrentSpace = Except.error E) ∨
      (∃ space E, cli.GetCurrentSpace = Except.ok space ∧
        cli.CliCommandWithoutTerminalOutput ["curl", appsUrl space] = Except.error E) ∨
      (∃ space lines e, cli.GetCurrentSpace = Except.ok space ∧
        cli.CliCommandWithoutTerminalOutput ["curl", appsUrl space] = Except.ok lines ∧
        Unmarshal (Join lines) = Except.error e) ∨
      (∃ space lines L, cli.GetCurrentSpace = Except.ok space ∧
        cli.CliCommandWithoutTerminalOutput ["curl", appsUrl space] = Except.ok lines ∧
        Unmarshal (Join lines) = Except.ok ⟨List.map some L⟩)) :
    (Run rt cli [command, searchString]).stdout =
        (process rt cli searchString).stdout ++
          ["\nTook " ++ rt.formatSeconds rt.startMilli rt.endMilli ++ "s\n"] ∧
    (Run rt cli [command, searchString]).term = Termination.returned := by
  have hterm : (process rt cli searchString).term = Termination.returned := by
    rcases h with ⟨E, hs⟩ | ⟨space, E, hs, hc⟩ | ⟨space, lines, e, hs, hc, hd⟩ |
      ⟨space, lines, L, hs, hc, hd⟩
    · simp [process, hs]
    · simp [process, hs, hc]
    · simp [process, hs, hc, parseCFApps, hd]
    · simp [process, hs, hc, parseCFApps, hd, printMatches_records]
  simp [Run, validateInput, hterm, tookLine]

/-- Scenario 6 of the specification, run to the end. -/
theorem Run_ends_with_timing_line_witness :
    (Run demoRuntime (hostAnswering scenarioLines) ["find-app", "api"]).stdout =
        ["[Name:\"api-gateway\", State:\"STARTED\"]\n", "\nTook 1.5s\n"] ∧
    (Run demoRuntime (hostAnswering scenarioLines) ["find-app", "api"]).term =
        Termination.returned :=
  Run_ends_with_timing_line demoRuntime (hostAnswering scenarioLines) "find-app" "api"
    (Or.inr (Or.inr (Or.inr ⟨⟨"space-123"⟩, scenarioLines,
      [⟨"api-gateway", "g1", "STARTED"⟩, ⟨"worker", "g2", "STOPPED"⟩], rfl, rfl, rfl⟩)))

/-! ## C9: the raw command -/

/-- C9: when `GetCurrentSpace` succeeds with a space of guid `g`, the host
calls of `process` are the space lookup followed by exactly one raw command,
with arguments `curl` and `/v3/apps?space_guids=g&per_page=5000`, whatever the
response; and when that command fails with the error `E`, `process` prints
`Unable to execute cf curl ` followed by the path on one line, then the text
of `E`, and nothing else. -/
theorem process_issues_one_curl (rt : GoRuntime) (cli : CliConnection)
    (searchString : String) (space : Space) (h : cli.GetCurrentSpace = Except.ok space) :
    (process rt cli searchString).calls =
      [HostCall.GetCurrentSpace,
        HostCall.CliCommandWithoutTerminalOutput
          ["curl", "/v3/apps?space_guids=" ++ space.Guid ++ "&per_page=5000"]] ∧
    ∀ E : GoError,
      cli.CliCommandWithoutTerminalOutput
          ["curl", "/v3/apps?space_guids=" ++ space.Guid ++ "&per_page=5000"] = Except.error E →
      (process rt cli searchString).stdout =
          ["Unable to execute cf curl " ++
              ("/v3/apps?space_guids=" ++ space.Guid ++ "&per_page=5000") ++ "\n",
            E.Error ++ "\n"] ∧
        (process rt cli searchString).term = Termination.returned := by
  constructor
  · simp only [process, h, appsUrl]
    cases cli.CliCommandWithoutTerminalOutput
        ["curl", "/v3/apps?space_guids=" ++ space.Guid ++ "&per_page=5000"] with
    | error e => rfl
    | ok lines =>
      simp only
      rcases hp : parseCFApps rt (Join lines) with ⟨printed, apps, _ | err⟩ <;> rfl
  · intro E hE
    simp only [process, h, appsUrl, hE, logError, Println]
    trivial

/-- Witness of C9 on a host whose raw command fails. -/
theorem process_issues_one_curl_witness :
    (process demoRuntime hostFailingCurl "api").calls =
      [HostCall.GetCurrentSpace,
        HostCall.CliCommandWithoutTerminalOutput
          ["curl", "/v3/apps?space_guids=space-123&per_page=5000"]] ∧
    (process demoRuntime hostFailingCurl "api").stdout =
      ["Unable to execute cf curl /v3/apps?space_guids=space-123&per_page=5000\n",
        "connection refused\n"] :=
  ⟨(process_issues_one_curl demoRuntime hostFailingCurl "api" ⟨"space-123"⟩ rfl).1,
   ((process_issues_one_curl demoRuntime hostFailingCurl "api" ⟨"space-123"⟩ rfl).2
      ⟨"connection refused"⟩ rfl).1⟩

/-! ## C10: a null element of `resources` -/

/-- C10: the response `{"resources":[null]}` decodes without error to a
collection whose only element is the nil pointer, and the loop of `process`
then reads `app.Name` through it: `process` panics, and `Run` ends by that
panic having printed nothing, not even the timing line. -/
theorem process_null_element_panics :
    Unmarshal "\x7b\"resources\":[null]\x7d" = Except.ok ⟨[none]⟩ ∧
    (process demoRuntime (hostAnswering ["\x7b\"resources\":[null]\x7d"]) "api").term =
        Termination.panicked ∧
    Run demoRuntime (hostAnswering ["\x7b\"resources\":[null]\x7d"]) ["find-app", "api"] =
        ⟨[], [HostCall.GetCurrentSpace,
              HostCall.CliCommandWithoutTerminalOutput
                ["curl", "/v3/apps?space_guids=space-123&per_page=5000"]],
          Termination.panicked⟩ := by
  refine ⟨rfl, rfl, rfl⟩

end FindApp
